import Mathlib

/-!
Verification of the `backup_text` human-readable backup codec
(components/backup_text of the TiKV fork).

Shallow embedding conventions:
* Byte strings are `List Nat` with each element intended `< 256`.
* Rust machine integers are `Int`/`Nat` with explicit wrap-arounds
  (`% 2^64`, sign re-interpretation) where the source wraps.
* Fallible Rust paths (`Result`, `.unwrap()` panics) become `Option`/`Except`.
* Library code of the repository that is not part of the extracted sources
  (the `tidb_query_datatype` codec, `txn_types` keys, `keys` prefixes,
  `blake3` hashing) is modelled from the specification; every such
  definition carries a doc comment starting with `Modelled from the spec:`.
-/

namespace BackupText

/-! ## Basic byte utilities -/

/-- Big-endian byte rendering of a natural number into `w` bytes
(the most significant byte first), as `codec`'s `NumberCodec` writes it. -/
def beBytes (w : Nat) (n : Nat) : List Nat :=
  match w with
  | 0 => []
  | Nat.succ w => (n / 256 ^ w) % 256 :: beBytes w (n % 256 ^ w)

/-- Big-endian interpretation of a byte list as a natural number. -/
def fromBeBytes : List Nat → Nat
  | [] => 0
  | b :: r => b * 256 ^ r.length + fromBeBytes r

/-- Little-endian byte rendering (used by `to_le_bytes` in `mask.rs`). -/
def leBytes (w : Nat) (n : Nat) : List Nat :=
  match w with
  | 0 => []
  | Nat.succ w => n % 256 :: leBytes w (n / 256)

/-- Little-endian interpretation of a byte list. -/
def fromLeBytes (l : List Nat) : Nat :=
  match l with
  | [] => 0
  | b :: rest => b + 256 * fromLeBytes rest

/-- Re-interpret a 64-bit unsigned value as a signed one (`as i64`). -/
def toI64 (n : Nat) : Int :=
  if n < 2 ^ 63 then (n : Int) else (n : Int) - 2 ^ 64

/-- Re-interpret a signed value as 64-bit unsigned (`as u64` / `to_le_bytes`). -/
def toU64 (x : Int) : Nat :=
  (x % 2 ^ 64).toNat

/-! ## Keyed hash (workload-mask primitives) -/

/-- Modelled from the spec: the keyed XOF hash (`blake3` in derive-key mode
with the fixed context string `tidb`) of `mask.rs` is not part of the
extracted sources.  It is modelled as a concrete deterministic byte mixer;
the claims only rely on determinism and on the output size. -/
def polyHashStep (acc b : Nat) : Nat :=
  (acc * 1099511628211 + b + 97) % 2 ^ 64

/-- Modelled from the spec: one derived output byte of the keyed XOF. -/
def xofByte (bytes : List Nat) (i : Nat) : Nat :=
  (bytes ++ [i % 256]).foldl polyHashStep 14695981039346656037 % 256

/-- Modelled from the spec: `hash_bytes(bytes, size)` fills a buffer of
exactly `size` bytes from the keyed XOF reader. -/
def hash_bytes (bytes : List Nat) (size : Nat) : List Nat :=
  (List.range size).map (xofByte bytes)

/-! ## Integer masking (`mask.rs`, `mask_i64` / `mask_u64`) -/

/-- The `I24_MIN` constant of `mask.rs` (`-(1 << 24 - 1)`, i.e. `-(1 << 23)`
by Rust operator precedence). -/
def I24_MIN : Int := -(2 ^ 23)

/-- The `I24_MAX` constant of `mask.rs` (`(1 << 24 - 1) - 1 = 2^23 - 1`). -/
def I24_MAX : Int := 2 ^ 23 - 1

/-- The `U24_MAX` constant of `mask.rs` (`(1 << 24) - 1`). -/
def U24_MAX : Nat := 2 ^ 24 - 1

/-- Embedding of `mask_i64`: hash the little-endian bytes of the input, then
reduce with Rust `%` (truncated remainder, `Int.tmod`) by the bound of the
narrowest signed width containing the input. -/
def mask_i64 (x : Int) : Int :=
  let t := toI64 (fromLeBytes (hash_bytes (leBytes 8 (toU64 x)) 8))
  if -128 ≤ x ∧ x ≤ 127 then t.tmod 128
  else if -32768 ≤ x ∧ x ≤ 32767 then t.tmod 32768
  else if I24_MIN ≤ x ∧ x ≤ I24_MAX then t.tmod (I24_MAX + 1)
  else if -(2 ^ 31) ≤ x ∧ x ≤ 2 ^ 31 - 1 then t.tmod (2 ^ 31)
  else t

/-- Embedding of `mask_u64`: unsigned counterpart of `mask_i64`. -/
def mask_u64 (x : Nat) : Nat :=
  let t := fromLeBytes (hash_bytes (leBytes 8 x) 8)
  if x ≤ 255 then t % 256
  else if x ≤ 65535 then t % 65536
  else if x ≤ U24_MAX then t % (U24_MAX + 1)
  else if x ≤ 2 ^ 32 - 1 then t % 2 ^ 32
  else t % 2 ^ 64

/-! ## Byte-string masking (`mask.rs`, `mask_string`) -/

/-- Lowercase hexadecimal digit of a nibble, as a byte
(`0`-`9` are 48-57, `a`-`f` are 97-102). -/
def hexDigit (n : Nat) : Nat :=
  if n < 10 then 48 + n else 87 + n

/-- Lowercase hex expansion of a byte string (`hex::encode`). -/
def hexEncode : List Nat → List Nat
  | [] => []
  | b :: r => hexDigit (b / 16) :: hexDigit (b % 16) :: hexEncode r

/-- Embedding of `mask_string`: hash to `size / 2` bytes (with `size` the
input length bumped to at least 2), hex-expand, and pad with `*` (byte 42)
back to `size`. -/
def mask_string (bytes : List Nat) : List Nat :=
  let size := if bytes.length < 2 then 2 else bytes.length
  let sum := hash_bytes bytes (size / 2)
  let hex := hexEncode sum
  hex ++ List.replicate (size - hex.length) 42

/-! ## Duration model -/

/-- Modelled from the spec: `tidb_query_datatype`'s `Duration` is a
nanosecond count plus a fractional-second precision (`fsp`). -/
structure Duration where
  nanos : Int
  fsp : Nat
  deriving DecidableEq, Repr

/-- Modelled from the spec: the `HH:MM:SS[.fraction]` rendering of a
duration (`Duration::to_string`), represented by the fields it displays.
`fracLen` is the number of rendered fraction digits. -/
structure DurDisplay where
  neg : Bool
  hours : Nat
  minutes : Nat
  secs : Nat
  frac : Nat
  fracLen : Nat
  deriving DecidableEq, Repr

/-- Modelled from the spec: render a duration as `HH:MM:SS[.fraction]`
with `fsp` fraction digits. -/
def Duration.toDisplay (d : Duration) : DurDisplay :=
  let n := d.nanos.natAbs
  { neg := d.nanos < 0
    hours := n / 3600000000000
    minutes := n / 60000000000 % 60
    secs := n / 1000000000 % 60
    frac := n % 1000000000 / 10 ^ (9 - d.fsp)
    fracLen := d.fsp }

/-- Half-up rounding of a nanosecond count at `fsp` fraction digits
(the core of `Duration::round_frac`). -/
def roundFracNanos (n : Int) (fsp : Nat) : Int :=
  let v := (n.natAbs + 10 ^ (9 - fsp) / 2) / 10 ^ (9 - fsp) * 10 ^ (9 - fsp)
  if n < 0 then -(v : Int) else (v : Int)

/-- Modelled from the spec: `Duration::parse(ctx, text, fsp)` reads an
`HH:MM:SS[.fraction]` rendering back and rounds the fraction to `fsp`
digits; it rejects invalid `fsp` (`check_fsp`) and out-of-range fields. -/
def Duration.parse (s : DurDisplay) (fsp : Nat) : Option Duration :=
  if fsp ≤ 6 ∧ s.minutes < 60 ∧ s.secs < 60 ∧ s.hours ≤ 838 ∧
      s.frac < 10 ^ s.fracLen ∧ s.fracLen ≤ 9 then
    let raw : Int :=
      ((s.hours * 3600 + s.minutes * 60 + s.secs) * 1000000000
        + s.frac * 10 ^ (9 - s.fracLen) : Nat)
    let raw := if s.neg then -raw else raw
    some { nanos := roundFracNanos raw fsp, fsp := fsp }
  else none

/-- Modelled from the spec: the raw `Duration::new` constructor. -/
def Duration.new (nanos : Int) (fsp : Nat) : Duration :=
  { nanos := nanos, fsp := fsp }

/-- Modelled from the spec: `Duration::round_frac` re-rounds to a new
`fsp`, failing on an invalid `fsp` (`> MAX_FSP = 6`). -/
def Duration.round_frac (d : Duration) (fsp : Nat) : Option Duration :=
  if fsp ≤ 6 then some { nanos := roundFracNanos d.nanos fsp, fsp := fsp }
  else none

/-- Constructible durations: a valid `fsp` and a nanosecond count already
truncated to `fsp` digits and inside the `838:59:59`-hour range, which is
what every public `Duration` constructor guarantees. -/
def Duration.WellFormed (d : Duration) : Prop :=
  d.fsp ≤ 6 ∧ ((10 : Int) ^ (9 - d.fsp) ∣ d.nanos) ∧ d.nanos.natAbs < 839 * 3600000000000

instance (d : Duration) : Decidable d.WellFormed := by
  unfold Duration.WellFormed; infer_instance

/-- Embedding of `mask_duration`: mask the nanosecond count, reduce below
the maximal duration, and round back to the original `fsp`. -/
def mask_duration (d : Duration) : Option Duration :=
  let nanos := (mask_i64 d.nanos).tmod 3000000000000000
  (Duration.new nanos 6).round_frac d.fsp

/-! ## Time (date/datetime/timestamp) model -/

inductive TimeType where
  | tDate
  | tDateTime
  | tTimestamp
  deriving DecidableEq, Repr

/-- Modelled from the spec: `Time` is a raw 64-bit packed representation
(year 14 bits, month 4, day 5, hour 5, minute 6, second 6, microsecond 20,
and 4 low bits holding `fsp` and the time-type tag). -/
structure Time where
  packed : Nat
  deriving DecidableEq, Repr

/-- Modelled from the spec: the low 4 bits of the packing (`fsp` and tag). -/
def Time.fspTt (t : Time) : Nat := t.packed % 16

/-- Modelled from the spec: the time-type tag stored in the low bits. -/
def Time.get_time_type (t : Time) : TimeType :=
  if t.fspTt / 2 = 7 then TimeType.tDate
  else if t.fspTt % 2 = 0 then TimeType.tDateTime
  else TimeType.tTimestamp

/-- Modelled from the spec: the stored fractional-second precision. -/
def Time.fsp (t : Time) : Nat :=
  if t.fspTt / 2 = 7 then 0 else t.fspTt / 2

/-- Modelled from the spec: bit-field accessors of the packed form. -/
def Time.micro (t : Time) : Nat := t.packed / 2 ^ 4 % 2 ^ 20

/-- Modelled from the spec: seconds field of the packed form. -/
def Time.second (t : Time) : Nat := t.packed / 2 ^ 24 % 2 ^ 6

/-- Modelled from the spec: minutes field of the packed form. -/
def Time.minute (t : Time) : Nat := t.packed / 2 ^ 30 % 2 ^ 6

/-- Modelled from the spec: hours field of the packed form. -/
def Time.hour (t : Time) : Nat := t.packed / 2 ^ 36 % 2 ^ 5

/-- Modelled from the spec: day field of the packed form. -/
def Time.day (t : Time) : Nat := t.packed / 2 ^ 41 % 2 ^ 5

/-- Modelled from the spec: month field of the packed form. -/
def Time.month (t : Time) : Nat := t.packed / 2 ^ 46 % 2 ^ 4

/-- Modelled from the spec: year field of the packed form. -/
def Time.year (t : Time) : Nat := t.packed / 2 ^ 50 % 2 ^ 14

/-- Gregorian leap-year rule, as `mysql::last_day_of_month` uses it. -/
def isLeapYear (y : Nat) : Bool :=
  y % 4 = 0 && (y % 100 ≠ 0 || y % 400 = 0)

/-- Modelled from the spec: `mysql::last_day_of_month`. -/
def last_day_of_month (y m : Nat) : Nat :=
  if m = 4 ∨ m = 6 ∨ m = 9 ∨ m = 11 then 30
  else if m = 2 then (if isLeapYear y then 29 else 28)
  else 31

/-- Modelled from the spec: low 4 bits written for a (time type, fsp). -/
def fspTtOf (tt : TimeType) (fsp : Nat) : Nat :=
  match tt with
  | TimeType.tDate => 14
  | TimeType.tDateTime => fsp * 2
  | TimeType.tTimestamp => fsp * 2 + 1

/-- Modelled from the spec: pack calendar fields into the 64-bit form. -/
def packTime (year month day hour minute second micro fspTt : Nat) : Nat :=
  year * 2 ^ 50 + month * 2 ^ 46 + day * 2 ^ 41 + hour * 2 ^ 36 +
    minute * 2 ^ 30 + second * 2 ^ 24 + micro * 2 ^ 4 + fspTt

/-- Modelled from the spec: `DateTime::from_slice(ctx, parts, tt, fsp)`
validates every calendar field and packs them; `None` on any invalid
field or `fsp`. -/
def Time.from_slice (year month day hour minute second micro : Nat)
    (tt : TimeType) (fsp : Nat) : Option Time :=
  if fsp ≤ 6 ∧ year < 10000 ∧ 1 ≤ month ∧ month ≤ 12 ∧
      1 ≤ day ∧ day ≤ last_day_of_month year month ∧
      hour < 24 ∧ minute < 60 ∧ second < 60 ∧ micro < 1000000 then
    some ⟨packTime year month day hour minute second micro (fspTtOf tt fsp)⟩
  else none

/-- Embedding of `mask_time` (`mask.rs` lines 96-128): clear the low 4
bits, mask the packed value, clamp every calendar field into its legal
range, and rebuild through `from_slice`. -/
def mask_time (t : Time) : Option Time :=
  let fsp := t.fsp
  let tt := t.get_time_type
  let core_time := t.packed / 16 * 16
  let unchecked : Time := ⟨mask_u64 core_time⟩
  let year :=
    match tt with
    | TimeType.tDate | TimeType.tDateTime => unchecked.year % 10000
    | TimeType.tTimestamp => unchecked.year % (2036 - 1970) + 1970
  let month := unchecked.month % 12 + 1
  let day := unchecked.day % last_day_of_month year month + 1
  let hour := unchecked.hour % 24
  let minute := unchecked.minute % 60
  let second := unchecked.second % 60
  let micro := unchecked.micro % 1000000
  Time.from_slice year month day hour minute second micro tt fsp

/-! ## Decimal model -/

/-- Number of decimal digits of a natural number (at least 1). -/
def numDigits (n : Nat) : Nat :=
  if h : n < 10 then 1 else 1 + numDigits (n / 10)
  decreasing_by exact Nat.div_lt_self (by omega) (by norm_num)

/-- Modelled from the spec: a fixed-point decimal is a value (sign,
mantissa, fraction-digit count) plus an optional preferred precision
carried as side information. -/
structure Decimal where
  neg : Bool
  mantissa : Nat
  frac : Nat
  prefPrec : Option Nat
  deriving DecidableEq, Repr

/-- Integer part of the decimal value. -/
def Decimal.intPart (d : Decimal) : Nat := d.mantissa / 10 ^ d.frac

/-- Modelled from the spec: the precision naturally derived from the
rendered digits. -/
def Decimal.naturalPrec (d : Decimal) : Nat := numDigits d.intPart + d.frac

/-- Modelled from the spec: `Decimal::preferred_prec_and_frac` returns the
carried preferred precision when present, else the natural one. -/
def Decimal.preferred_prec_and_frac (d : Decimal) : Nat × Nat :=
  (d.prefPrec.getD d.naturalPrec, d.frac)

/-- Modelled from the spec: `Decimal::prec_and_frac` (natural form). -/
def Decimal.prec_and_frac (d : Decimal) : Nat × Nat :=
  (d.naturalPrec, d.frac)

/-- Modelled from the spec: `Decimal::set_preferred_prec`. -/
def Decimal.set_preferred_prec (d : Decimal) (p : Option Nat) : Decimal :=
  { d with prefPrec := p }

/-- Modelled from the spec: the rendered decimal text, represented by the
digits it displays. -/
structure DecDisplay where
  neg : Bool
  intPart : Nat
  fracPart : Nat
  fracLen : Nat
  deriving DecidableEq, Repr

/-- Modelled from the spec: `Decimal::to_string` renders the value at its
own scale (the preferred precision is not part of the text). -/
def Decimal.toDisplay (d : Decimal) : DecDisplay :=
  { neg := d.neg
    intPart := d.mantissa / 10 ^ d.frac
    fracPart := d.mantissa % 10 ^ d.frac
    fracLen := d.frac }

/-- Modelled from the spec: `str::parse::<Decimal>` reads the rendered
digits back; it fails when the digit count exceeds the maximal decimal
precision (65). -/
def Decimal.parseDec (s : DecDisplay) : Option Decimal :=
  if numDigits s.intPart + s.fracLen ≤ 65 ∧ s.fracPart < 10 ^ s.fracLen then
    some { neg := s.neg
           mantissa := s.intPart * 10 ^ s.fracLen + s.fracPart
           frac := s.fracLen
           prefPrec := none }
  else none

/-- Constructible decimals: digit count within the 65-digit bound and no
negative zero. -/
def Decimal.WellFormed (d : Decimal) : Prop :=
  numDigits d.intPart + d.frac ≤ 65 ∧ (d.neg → d.mantissa ≠ 0)

instance (d : Decimal) : Decidable d.WellFormed := by
  unfold Decimal.WellFormed; infer_instance

/-- Modelled from the spec: the two bytes of side information (preferred
precision and fraction count) followed by an injective rendering of the
value, standing in for the binary decimal datum encoding. -/
def Decimal.encodeDec (d : Decimal) : List Nat :=
  let pf := d.preferred_prec_and_frac
  pf.1 :: pf.2 :: (if d.neg then 1 else 0) :: Nat.digits 256 d.mantissa

/-- Modelled from the spec: one digit of the `{:.10e}`-style digit stream
of the hashed float magnitude; the leading digit of a scientific-form
rendering is never zero. -/
def maskedDigit (seed : Nat) (i : Nat) : Nat :=
  if i = 0 then 1 + xofByte [seed % 256, seed / 256 % 256] 0 % 9
  else xofByte [seed % 256, seed / 256 % 256] i % 10

/-- Digits `i ..< i + len` of the masked digit stream as one number. -/
def maskedDigitsNum (seed : Nat) (start len : Nat) : Nat :=
  (List.range len).foldl (fun acc j => acc * 10 + maskedDigit seed (start + j)) 0

/-- Embedding of `mask_decimal`: mask the float magnitude, re-render at the
original (integer digits, fraction digits) shape, and parse the result
back; the float conversion and digit extraction are modelled from the spec
by a hash-derived digit stream. -/
def mask_decimal (d : Decimal) : Option Decimal :=
  let pf := d.prec_and_frac
  let intNum := max (pf.1 - pf.2) 1
  Decimal.parseDec
    { neg := d.neg
      intPart := maskedDigitsNum d.mantissa 0 intNum
      fracPart := maskedDigitsNum d.mantissa intNum pf.2
      fracLen := pf.2 }

/-- Modelled from the spec: `mask_f64` hashes the float bits and re-derives
a finite float of the same printed shape; the formatting round trip never
fails, so the embedding is total on the bit pattern. -/
def mask_f64 (bits : Nat) : Option Nat :=
  let hashed := fromLeBytes (hash_bytes (leBytes 8 bits) 8)
  some (if hashed / 2 ^ 52 % 2 ^ 11 = 2047 then hashed % 2 ^ 52 else hashed)

/-! ## Datum model -/

/-- Modelled from the spec: a JSON document (payload of `Datum::Json`);
the codec passes it through untouched. -/
inductive Json where
  | jNull
  | jBool (b : Bool)
  | jInt (n : Int)
  | jStr (s : List Nat)
  | jArr (l : List Json)
  | jObj (l : List (List Nat × Json))

/-- Modelled from the spec: an enum value is a member name plus ordinal. -/
structure EnumVal where
  name : List Nat
  value : Nat
  deriving DecidableEq, Repr

/-- Modelled from the spec: a set value is a member-name carrier
(`BufferVec`) plus a bitmask. -/
structure SetVal where
  data : List (List Nat)
  value : Nat
  deriving DecidableEq, Repr

/-- The `Datum` tagged union of `tidb_query_datatype`, with floats carried
as raw 64-bit patterns. -/
inductive Datum where
  | null
  | i64 (v : Int)
  | u64 (v : Nat)
  | f64 (bits : Nat)
  | dur (d : Duration)
  | bytes (b : List Nat)
  | dec (d : Decimal)
  | time (t : Time)
  | json (j : Json)
  | enum (e : EnumVal)
  | set (s : SetVal)
  | min
  | max

/-- Whether a byte (continuation byte) fits `0x80 ..= 0xBF`. -/
def utf8Cont (b : Nat) : Bool := 128 ≤ b && b < 192

/-- Modelled from the spec: `String::from_utf8` validity of a byte string
(the round-trip claims are independent of the exact extension of this
predicate, since both `HrBytes` variants carry the raw bytes). -/
def isValidUtf8 (l : List Nat) : Bool :=
  match l with
  | [] => true
  | b :: rest =>
    if b < 128 then isValidUtf8 rest
    else
      match rest with
      | [] => false
      | c1 :: r1 =>
        if 194 ≤ b && b ≤ 223 then utf8Cont c1 && isValidUtf8 r1
        else
          match r1 with
          | [] => false
          | c2 :: r2 =>
            if b = 224 then (160 ≤ c1 && c1 ≤ 191) && utf8Cont c2 && isValidUtf8 r2
            else if (225 ≤ b && b ≤ 236) || b = 238 || b = 239 then
              utf8Cont c1 && utf8Cont c2 && isValidUtf8 r2
            else if b = 237 then (128 ≤ c1 && c1 ≤ 159) && utf8Cont c2 && isValidUtf8 r2
            else
              match r2 with
              | [] => false
              | c3 :: r3 =>
                if b = 240 then
                  (144 ≤ c1 && c1 ≤ 191) && utf8Cont c2 && utf8Cont c3 && isValidUtf8 r3
                else if 241 ≤ b && b ≤ 243 then
                  utf8Cont c1 && utf8Cont c2 && utf8Cont c3 && isValidUtf8 r3
                else if b = 244 then
                  (128 ≤ c1 && c1 ≤ 143) && utf8Cont c2 && utf8Cont c3 && isValidUtf8 r3
                else false

/-! ## Human-readable datum (`hr_datum.rs`) -/

/-- Embedding of `HrBytes`: a UTF-8 string or an explicit raw-byte
variant, both carrying the underlying bytes. -/
inductive HrBytes where
  | utf8 (b : List Nat)
  | raw (b : List Nat)
  deriving DecidableEq, Repr

/-- Embedding of `impl From<Vec<u8>> for HrBytes`. -/
def HrBytes.ofBytes (bytes : List Nat) : HrBytes :=
  if isValidUtf8 bytes then HrBytes.utf8 bytes else HrBytes.raw bytes

/-- Embedding of `impl Into<Vec<u8>> for HrBytes`. -/
def HrBytes.intoBytes : HrBytes → List Nat
  | HrBytes.utf8 b => b
  | HrBytes.raw b => b

/-- Embedding of `HrDuration` (rendered value plus `fsp`). -/
structure HrDuration where
  value : DurDisplay
  fsp : Nat
  deriving DecidableEq, Repr

/-- Embedding of `HrDuration::from`. -/
def HrDuration.ofDuration (d : Duration) : HrDuration :=
  { value := d.toDisplay, fsp := d.fsp }

/-- Embedding of `HrDuration::to_duration` (the `.unwrap()` panic becomes
`none`). -/
def HrDuration.to_duration (h : HrDuration) : Option Duration :=
  Duration.parse h.value h.fsp

/-- Embedding of `HrDecimal` (rendered value plus preferred precision). -/
structure HrDecimal where
  value : DecDisplay
  prec : Nat
  deriving DecidableEq, Repr

/-- Embedding of `impl From<Decimal> for HrDecimal`. -/
def HrDecimal.ofDecimal (d : Decimal) : HrDecimal :=
  { value := d.toDisplay, prec := d.preferred_prec_and_frac.1 }

/-- Embedding of `impl Into<Decimal> for HrDecimal` / `to_decimal`: parse
the rendered value and restore the preferred precision explicitly. -/
def HrDecimal.to_decimal (h : HrDecimal) : Option Decimal :=
  (Decimal.parseDec h.value).map (fun d => d.set_preferred_prec (some h.prec))

/-- Modelled from the spec: the display string of a time value, as far as
the codec is concerned it is determined by the packed representation. -/
def Time.render (t : Time) : List Nat := leBytes 8 t.packed

/-- Embedding of `HrTime` (rendered value plus the raw packed bits). -/
structure HrTime where
  value : List Nat
  raw : Nat
  deriving DecidableEq, Repr

/-- Embedding of `HrTime::from`. -/
def HrTime.ofTime (t : Time) : HrTime :=
  { value := t.render, raw := t.packed }

/-- Embedding of `HrTime::to_time`. -/
def HrTime.to_time (h : HrTime) : Time := ⟨h.raw⟩

/-- Embedding of `HrEnum`. -/
structure HrEnum where
  name : HrBytes
  value : Nat
  deriving DecidableEq, Repr

/-- Embedding of `HrSet`. -/
structure HrSet where
  data : HrBytes
  value : Nat
  deriving DecidableEq, Repr

/-- Comma-joined rendering of a set's member names (`Set::to_string`). -/
def joinComma : List (List Nat) → List Nat
  | [] => []
  | [x] => x
  | x :: r => x ++ 44 :: joinComma r

/-- Embedding of `HrDatum` (`hr_datum.rs` lines 170-198). -/
inductive HrDatum where
  | null
  | i64 (v : Int)
  | u64 (v : Nat)
  | f64 (bits : Nat)
  | dur (d : HrDuration)
  | bytes (b : HrBytes)
  | dec (d : HrDecimal)
  | time (t : HrTime)
  | json (j : Json)
  | enum (e : HrEnum)
  | set (s : HrSet)
  | min
  | max

/-- Embedding of `impl From<Datum> for HrDatum` (lines 204-228). -/
def HrDatum.ofDatum : Datum → HrDatum
  | Datum.null => HrDatum.null
  | Datum.i64 v => HrDatum.i64 v
  | Datum.u64 v => HrDatum.u64 v
  | Datum.f64 v => HrDatum.f64 v
  | Datum.dur d => HrDatum.dur (HrDuration.ofDuration d)
  | Datum.bytes v => HrDatum.bytes (HrBytes.ofBytes v)
  | Datum.dec d => HrDatum.dec (HrDecimal.ofDecimal d)
  | Datum.time t => HrDatum.time (HrTime.ofTime t)
  | Datum.json j => HrDatum.json j
  | Datum.enum e => HrDatum.enum { name := HrBytes.ofBytes e.name, value := e.value }
  | Datum.set s => HrDatum.set { data := HrBytes.utf8 (joinComma s.data), value := s.value }
  | Datum.min => HrDatum.min
  | Datum.max => HrDatum.max

/-- Embedding of `impl Into<Datum> for HrDatum` (lines 239-263); the
`.unwrap()` panics on the duration/decimal parses become `none`, and the
`Set` arm re-creates the set over the shared empty buffer
(`NULL_BUFFER_VEC`), losing the member names. -/
def HrDatum.intoDatum : HrDatum → Option Datum
  | HrDatum.null => some Datum.null
  | HrDatum.i64 v => some (Datum.i64 v)
  | HrDatum.u64 v => some (Datum.u64 v)
  | HrDatum.f64 v => some (Datum.f64 v)
  | HrDatum.dur d => (Duration.parse d.value d.fsp).map Datum.dur
  | HrDatum.bytes b => some (Datum.bytes b.intoBytes)
  | HrDatum.dec d => d.to_decimal.map Datum.dec
  | HrDatum.time t => some (Datum.time ⟨t.raw⟩)
  | HrDatum.json j => some (Datum.json j)
  | HrDatum.enum e => some (Datum.enum { name := e.name.intoBytes, value := e.value })
  | HrDatum.set s => some (Datum.set { data := [], value := s.value })
  | HrDatum.min => some Datum.min
  | HrDatum.max => some Datum.max

/-- Constructible datums: well-formed duration/decimal payloads. -/
def Datum.WellFormed : Datum → Prop
  | Datum.dur d => d.WellFormed
  | Datum.dec d => d.WellFormed
  | _ => True

instance (d : Datum) : Decidable d.WellFormed := by
  cases d <;> simp only [Datum.WellFormed] <;> infer_instance

/-- Whether a datum is a `Set` (excluded from the round-trip claim). -/
def Datum.isSet : Datum → Bool
  | Datum.set _ => true
  | _ => false

/-- Erase the decimal preferred-precision side information; two datums
with the same erasure are equal under the source's `PartialEq` (which
ignores the carried preferred precision). -/
def Datum.stripPref : Datum → Datum
  | Datum.dec d => Datum.dec { d with prefPrec := none }
  | x => x

/-- Set the decimal preferred precision to its effective value (the
carried one when present, else the natural one); this is what one
human-readable round trip produces. -/
def Datum.withEffectivePrec : Datum → Datum
  | Datum.dec d => Datum.dec { d with prefPrec := some (d.prefPrec.getD d.naturalPrec) }
  | x => x

/-- Binary re-encoding of a decimal datum (used by the bit-identity part
of the round-trip claim); `none` for other datum kinds. -/
def Datum.encodeDecBytes : Datum → Option (List Nat)
  | Datum.dec d => some d.encodeDec
  | _ => none

/-! ## Datum-level masking (`mask.rs` lines 196-287) -/

/-- Embedding of `workload_sim_mask` (`mask.rs` lines 196-226): each
fallible per-kind mask falls back to the original value via `unwrap_or`. -/
def workload_sim_mask : Datum → Datum
  | Datum.null => Datum.null
  | Datum.min => Datum.min
  | Datum.max => Datum.max
  | Datum.i64 i => Datum.i64 (mask_i64 i)
  | Datum.u64 u => Datum.u64 (mask_u64 u)
  | Datum.f64 f => Datum.f64 ((mask_f64 f).getD f)
  | Datum.bytes b => Datum.bytes (mask_string b)
  | Datum.enum e => Datum.enum { name := mask_string e.name, value := e.value }
  | Datum.dur d => Datum.dur ((mask_duration d).getD d)
  | Datum.time t => Datum.time ((mask_time t).getD t)
  | Datum.set s => Datum.set { data := s.data.map mask_string, value := s.value }
  | Datum.dec d => Datum.dec ((mask_decimal d).getD d)
  | Datum.json j => Datum.json j

/-- Embedding of `mask_hr_bytes`. -/
def mask_hr_bytes : HrBytes → HrBytes
  | HrBytes.utf8 s => HrBytes.utf8 (mask_string s)
  | HrBytes.raw r => HrBytes.raw (mask_string r)

/-- Split a byte string at commas (`str::split(',')`). -/
def splitAtComma (s : List Nat) : List (List Nat) :=
  match s with
  | [] => [[]]
  | b :: r =>
    match splitAtComma r with
    | [] => [[b]]
    | x :: xs => if b = 44 then [] :: x :: xs else (b :: x) :: xs

/-- Embedding of `mask_hr_datum` (`mask.rs` lines 238-287): the
`.unwrap()`-style panics (duration/decimal parse, non-UTF-8 set data)
become `none`; the fallible masks fall back via `unwrap_or`. -/
def mask_hr_datum : HrDatum → Option HrDatum
  | HrDatum.null => some HrDatum.null
  | HrDatum.max => some HrDatum.max
  | HrDatum.min => some HrDatum.min
  | HrDatum.i64 i => some (HrDatum.i64 (mask_i64 i))
  | HrDatum.u64 u => some (HrDatum.u64 (mask_u64 u))
  | HrDatum.f64 f => some (HrDatum.f64 ((mask_f64 f).getD f))
  | HrDatum.bytes b => some (HrDatum.bytes (mask_hr_bytes b))
  | HrDatum.enum e => some (HrDatum.enum { e with name := mask_hr_bytes e.name })
  | HrDatum.set s =>
    match s.data with
    | HrBytes.utf8 str =>
      some (HrDatum.set { s with
        data := HrBytes.utf8 (joinComma ((splitAtComma str).map mask_string)) })
    | HrBytes.raw _ => none
  | HrDatum.dur d =>
    d.to_duration.map fun raw_d =>
      HrDatum.dur (HrDuration.ofDuration ((mask_duration raw_d).getD raw_d))
  | HrDatum.time t =>
    some (HrDatum.time (HrTime.ofTime ((mask_time t.to_time).getD t.to_time)))
  | HrDatum.dec d =>
    d.to_decimal.map fun raw_d =>
      HrDatum.dec (HrDecimal.ofDecimal ((mask_decimal raw_d).getD raw_d))
  | HrDatum.json j => some (HrDatum.json j)

/-! ## Memcomparable byte encoding (`codec` crate) -/

/-- Modelled from the spec: the ascending memcomparable byte encoding
(9-byte groups: 8 payload bytes zero-padded plus a marker byte, `255` for
a full group with continuation, `247 + count` for the final group); the
fuel bounds the number of groups and is always called at least the input
length. -/
def encodeBytesCmpF : Nat → List Nat → List Nat
  | 0, b => b ++ List.replicate (8 - b.length) 0 ++ [247 + b.length]
  | fuel + 1, b =>
    if b.length < 8 then b ++ List.replicate (8 - b.length) 0 ++ [247 + b.length]
    else b.take 8 ++ 255 :: encodeBytesCmpF fuel (b.drop 8)

/-- Modelled from the spec: ascending memcomparable byte encoding. -/
def encodeBytesCmp (b : List Nat) : List Nat :=
  encodeBytesCmpF b.length b

/-- Modelled from the spec: decoding of the memcomparable byte groups,
returning the decoded bytes and the unconsumed remainder (fuelled). -/
def decodeBytesCmpF : Nat → List Nat → Option (List Nat × List Nat)
  | 0, _ => none
  | fuel + 1, e =>
    if e.length < 9 then none
    else
      let g := e.take 8
      let m := (e.drop 8).headD 0
      let rest := e.drop 9
      if m = 255 then (decodeBytesCmpF fuel rest).map (fun p => (g ++ p.1, p.2))
      else if 247 ≤ m ∧ m < 255 then
        if g.drop (m - 247) = List.replicate (8 - (m - 247)) 0 then
          some (g.take (m - 247), rest)
        else none
      else none

/-- Modelled from the spec: decoding of the memcomparable byte groups. -/
def decodeBytesCmp (e : List Nat) : Option (List Nat × List Nat) :=
  decodeBytesCmpF e.length e

/-- Modelled from the spec: `Key::into_raw` decodes the whole encoded key
(no remainder allowed). -/
def key_into_raw (e : List Nat) : Option (List Nat) :=
  match decodeBytesCmp e with
  | some (d, []) => some d
  | _ => none

/-- Modelled from the spec: the descending (complemented big-endian)
encoding of an appended 64-bit MVCC timestamp. -/
def encodeU64Desc (ts : Nat) : List Nat :=
  beBytes 8 (2 ^ 64 - 1 - ts % 2 ^ 64)

/-- Modelled from the spec: decode a descending 64-bit timestamp. -/
def decodeU64Desc (l : List Nat) : Nat :=
  2 ^ 64 - 1 - fromBeBytes l

/-- Modelled from the spec: `Key::split_on_ts_for` splits the trailing
8 bytes off as the timestamp whenever the key is at least 8 bytes long. -/
def split_on_ts_for (e : List Nat) : Option (List Nat × Nat) :=
  if e.length < 8 then none
  else some (e.take (e.length - 8), decodeU64Desc (e.drop (e.length - 8)))

/-- Modelled from the spec: the comparable signed-64 encoding (big-endian
bytes of the sign-flipped value). -/
def encodeI64Cmp (x : Int) : List Nat :=
  beBytes 8 (x + 2 ^ 63).toNat

/-- Modelled from the spec: decode a comparable signed-64 value. -/
def decodeI64Cmp (l : List Nat) : Int :=
  (fromBeBytes l : Int) - 2 ^ 63

/-! ## Datum wire codec (`tidb_query_datatype::codec::datum`) -/

/-- Modelled from the spec: LEB128 variable-length unsigned decoding. -/
def decodeVarU64 : List Nat → Option (Nat × List Nat)
  | [] => none
  | b :: r =>
    if b < 128 then some (b, r)
    else (decodeVarU64 r).map fun p => (b % 128 + 128 * p.1, p.2)

/-- Modelled from the spec: LEB128 variable-length unsigned encoding. -/
def encodeVarU64 (n : Nat) : List Nat :=
  if h : n < 128 then [n] else (n % 128 + 128) :: encodeVarU64 (n / 128)
  termination_by n
  decreasing_by exact Nat.div_lt_self (by omega) (by norm_num)

/-- Zigzag re-interpretation of a signed value for varint encoding. -/
def zigzag (x : Int) : Nat :=
  if 0 ≤ x then 2 * x.toNat else 2 * (-x).toNat - 1

/-- Inverse of `zigzag`. -/
def unzigzag (v : Nat) : Int :=
  if v % 2 = 0 then (v / 2 : Nat) else -((v + 1) / 2 : Nat)

/-- Read 8 bytes off a buffer. -/
def take8 (l : List Nat) : Option (List Nat × List Nat) :=
  if l.length < 8 then none else some (l.take 8, l.drop 8)

/-- Modelled from the spec: one step of `datum::decode` — the
self-describing flag byte selects the payload decoding.  The spec fixes
the layouts of null (0), memcomparable bytes (1), compact bytes (2),
comparable ints (3) and uints (4), and the varints (8, 9); the remaining
kinds have no layout given in the spec and decode as `none` here. -/
def read_datum (e : List Nat) : Option (Datum × List Nat) :=
  match e with
  | [] => none
  | f :: r =>
    if f = 0 then some (Datum.null, r)
    else if f = 1 then
      (decodeBytesCmp r).map fun p => (Datum.bytes p.1, p.2)
    else if f = 2 then
      (decodeVarU64 r).bind fun p =>
        let len := (unzigzag p.1).toNat
        if p.2.length < len then none
        else some (Datum.bytes (p.2.take len), p.2.drop len)
    else if f = 3 then
      (take8 r).map fun p => (Datum.i64 (decodeI64Cmp p.1), p.2)
    else if f = 4 then
      (take8 r).map fun p => (Datum.u64 (fromBeBytes p.1), p.2)
    else if f = 8 then
      (decodeVarU64 r).map fun p => (Datum.i64 (unzigzag p.1), p.2)
    else if f = 9 then
      (decodeVarU64 r).map fun p => (Datum.u64 p.1, p.2)
    else none

/-- Modelled from the spec: `datum::decode` — decode datums until the
buffer is exhausted (fuelled by the buffer length; `read_datum` always
consumes at least the flag byte). -/
def datum_decode_fuel : Nat → List Nat → Option (List Datum)
  | _, [] => some []
  | 0, _ :: _ => none
  | Nat.succ fuel, e =>
    (read_datum e).bind fun p => (datum_decode_fuel fuel p.2).map (p.1 :: ·)

/-- Modelled from the spec: `datum::decode` over a whole buffer. -/
def datum_decode (e : List Nat) : Option (List Datum) :=
  datum_decode_fuel e.length e

/-- Modelled from the spec: the key encoding of a single datum
(`datum::encode_key`); kinds with no layout in the spec encode as
`none`. -/
def encode_key_datum (d : Datum) : Option (List Nat) :=
  match d with
  | Datum.null => some [0]
  | Datum.i64 v => some (3 :: encodeI64Cmp v)
  | Datum.u64 v => some (4 :: beBytes 8 v)
  | Datum.bytes b => some (1 :: encodeBytesCmp b)
  | _ => none

/-- Modelled from the spec: `datum::encode_key` over a datum list. -/
def encode_key_datums : List Datum → Option (List Nat)
  | [] => some []
  | d :: ds =>
    (encode_key_datum d).bind fun e =>
      (encode_key_datums ds).map fun es => e ++ es

/-! ## Row keys (`hr_key.rs` plus the modelled `table` codec) -/

/-- Embedding of `HrHandle`. -/
inductive HrHandle where
  | common (l : List HrDatum)
  | int (h : Int)

/-- Embedding of `HrHandle::from_encoded_common_handle` (its `.unwrap()`
becomes `none`). -/
def HrHandle.from_encoded_common_handle (handle : List Nat) : Option HrHandle :=
  (datum_decode handle).map fun ds => HrHandle.common (ds.map HrDatum.ofDatum)

/-- Embedding of `HrDataKey`. -/
structure HrDataKey where
  table_id : Int
  ts : Option Nat
  handle : HrHandle

/-- Modelled from the spec: `table::encode_row_key` — `t`, the 8-byte
table id, the `_r` record separator, and the 8-byte integer handle. -/
def encode_row_key (table_id h : Int) : List Nat :=
  116 :: encodeI64Cmp table_id ++ [95, 114] ++ encodeI64Cmp h

/-- Modelled from the spec: `table::encode_row_key_with_common_handle`. -/
def encode_row_key_with_common_handle (table_id : Int) (h : List Nat) : List Nat :=
  116 :: encodeI64Cmp table_id ++ [95, 114] ++ h

/-- Modelled from the spec: `table::decode_table_id`. -/
def decode_table_id (raw : List Nat) : Option Int :=
  if raw.take 1 = [116] ∧ 9 ≤ raw.length then
    some (decodeI64Cmp ((raw.drop 1).take 8))
  else none

/-- Modelled from the spec: `table::decode_int_handle` (checks the record
key shape and reads the trailing 8 bytes). -/
def decode_int_handle (raw : List Nat) : Option Int :=
  if raw.take 1 = [116] ∧ (raw.drop 9).take 2 = [95, 114] ∧ 19 ≤ raw.length then
    some (decodeI64Cmp ((raw.drop 11).take 8))
  else none

/-- Modelled from the spec: `table::decode_common_handle` (checks the
record key shape and returns the handle bytes after the prefix). -/
def decode_common_handle (raw : List Nat) : Option (List Nat) :=
  if raw.take 1 = [116] ∧ (raw.drop 9).take 2 = [95, 114] ∧ 11 ≤ raw.length then
    some (raw.drop 11)
  else none

/-- The `PREFIX_LEN` constant (`t` + 8-byte table id + 2-byte separator). -/
def PREFIX_LEN : Nat := 11

/-- Embedding of `decode_key` (`hr_key.rs` lines 82-88): strip the `z`
data prefix, split an optional trailing timestamp (falling back to no
timestamp only when the split itself fails), and decode the
memcomparable user key. -/
def decode_key (data_key : List Nat) : Option (List Nat × Option Nat) :=
  let origin_encoded_key := data_key.drop 1
  let split :=
    match split_on_ts_for origin_encoded_key with
    | some (k, t) => (k, some t)
    | none => (origin_encoded_key, none)
  (key_into_raw split.1).map fun raw => (raw, split.2)

/-- Embedding of `HrDataKey::from_encoded` (`hr_key.rs` lines 38-55); the
`.unwrap()` panics become `none`. -/
def HrDataKey.from_encoded (encoded_key : List Nat) : Option HrDataKey :=
  (decode_key encoded_key).bind fun rk =>
    (decode_table_id rk.1).bind fun table_id =>
      (if rk.1.length = PREFIX_LEN + 8 then (decode_int_handle rk.1).map HrHandle.int
       else (decode_common_handle rk.1).bind HrHandle.from_encoded_common_handle).bind
        fun handle => some { table_id := table_id, ts := rk.2, handle := handle }

/-- Embedding of `HrDataKey::into_encoded` (`hr_key.rs` lines 57-79); the
`.unwrap()` on encoding an unsupported common-handle datum becomes
`none`. -/
def HrDataKey.into_encoded (hr : HrDataKey) : Option (List Nat) :=
  (match hr.handle with
   | HrHandle.common datums =>
     (datums.mapM HrDatum.intoDatum).bind fun ds =>
       (encode_key_datums ds).map fun handle =>
         encode_row_key_with_common_handle hr.table_id handle
   | HrHandle.int h => some (encode_row_key hr.table_id h)).map fun raw =>
    let key := encodeBytesCmp raw
    let key :=
      match hr.ts with
      | some ts => key ++ encodeU64Desc ts
      | none => key
    122 :: key

/-- Datums that can appear in a well-formed common handle: the kinds whose
key layout the spec fixes, with machine-width values in range (handle
columns are non-null primary-key values). -/
def KeyDatumOk : Datum → Prop
  | Datum.i64 v => -(2 ^ 63) ≤ v ∧ v < 2 ^ 63
  | Datum.u64 v => v < 2 ^ 64
  | Datum.bytes _ => True
  | _ => False

/-! ## Index values (`hr_index.rs`) -/

/-- Modelled from the spec: the legacy length threshold
`table::MAX_OLD_ENCODED_VALUE_LEN`. -/
def MAX_OLD_ENCODED_VALUE_LEN : Nat := 9

/-- Modelled from the spec: the version-segment sentinel
(`table::INDEX_VALUE_VERSION_FLAG`), taken at its upstream value. -/
def INDEX_VALUE_VERSION_FLAG : Nat := 125

/-- Modelled from the spec: the partition-id sentinel
(`table::INDEX_VALUE_PARTITION_ID_FLAG`), taken at its upstream value. -/
def INDEX_VALUE_PARTITION_ID_FLAG : Nat := 126

/-- Modelled from the spec: the common-handle sentinel
(`table::INDEX_VALUE_COMMON_HANDLE_FLAG`), taken at its upstream value. -/
def INDEX_VALUE_COMMON_HANDLE_FLAG : Nat := 127

/-- Modelled from the spec: the restore-data sentinel
(`table::INDEX_VALUE_RESTORED_DATA_FLAG`); upstream it coincides with the
row-v2 codec version byte that heads every row-v2 slice, which is why the
restore-data split keeps the sentinel inside the segment. -/
def INDEX_VALUE_RESTORED_DATA_FLAG : Nat := 128

/-- Modelled from the spec: a decoded row-v2 slice.  Its internal fields
(`is_big`, the id tables, the datums) play no role in any claim, so the
model retains the raw slice bytes. -/
structure RowV2 where
  raw : List Nat
  deriving DecidableEq, Repr

/-- Modelled from the spec: `RowV2::from_bytes` parses a self-describing
slice whose header starts with the row-v2 codec version byte; modelled
coarsely as validating that byte and retaining the slice, since the slice
internals are not under `src/` and no claim depends on them. -/
def RowV2.from_bytes (val : List Nat) : Option RowV2 :=
  if val.headD 0 = 128 ∧ val ≠ [] then some ⟨val⟩ else none

/-- The error cases of `decode_index_value` and its helpers, one
constructor per distinct error site of `hr_index.rs` (the `format!`-built
corruption messages, the codec-underflow errors of the number reads, and
the propagated common-handle datum / restore-row decode failures). -/
inductive IndexErr where
  | tailLenCorrupted (tail_len : Nat)
  | handleLenCorrupted (handle_len : Nat)
  | partitionIdTooShort (len : Nat)
  | extraBytes (rem : List Nat)
  | eof
  | datumCorrupted
  | rowCorrupted
  deriving DecidableEq, Repr

/-- Embedding of `HrIndexTail`. -/
inductive HrIndexTail where
  | int (v : Int)
  | padding (b : List Nat)
  deriving DecidableEq, Repr

/-- Embedding of `HrIndexTail::from_bytes`: at least 8 bytes decode as a
big-endian `u64` reinterpreted as `i64`, shorter data is kept as padding. -/
def HrIndexTail.from_bytes (data : List Nat) : HrIndexTail :=
  if 8 ≤ data.length then HrIndexTail.int (toI64 (fromBeBytes (data.take 8)))
  else HrIndexTail.padding data

/-- Embedding of `HrIndexValue` (all segments optional, `None` when the
segment is absent from the wire form). -/
structure HrIndexValue where
  tail_len : Option Nat := none
  version_segment : Option (Nat × Nat) := none
  common_handle : Option (List HrDatum) := none
  partition_id : Option Int := none
  restore_data : Option RowV2 := none
  tail : Option HrIndexTail := none

/-- Embedding of `HrIndex::get_index_version` (`hr_index.rs` lines
266-283). -/
def get_index_version (value : List Nat) : Except IndexErr Nat :=
  if value.length = 3 ∨ value.length = 4 then Except.ok 1
  else if value.length ≤ MAX_OLD_ENCODED_VALUE_LEN then Except.ok 0
  else
    let tail_len := value.headD 0
    if value.length ≤ tail_len then Except.error (IndexErr.tailLenCorrupted tail_len)
    else if (tail_len = 0 ∨ tail_len = 1) ∧ value.getD 1 0 = INDEX_VALUE_VERSION_FLAG then
      Except.ok (value.getD 2 0)
    else Except.ok 0

/-- Embedding of `HrIndex::split_common_handle` (`hr_index.rs` lines
216-230): a leading common-handle sentinel introduces a 2-byte big-endian
length and that many payload bytes; reading the length off fewer than two
bytes is a codec underflow, and a length overrunning the buffer is the
`handle_len` corruption error. -/
def split_common_handle (value : List Nat) : Except IndexErr (List Nat × List Nat) :=
  if value.headD 0 = INDEX_VALUE_COMMON_HANDLE_FLAG ∧ value ≠ [] then
    if value.length < 3 then Except.error IndexErr.eof
    else
      let handle_len := value.getD 1 0 * 256 + value.getD 2 0
      if value.length < 3 + handle_len then
        Except.error (IndexErr.handleLenCorrupted handle_len)
      else Except.ok ((value.drop 3).take handle_len, (value.drop 3).drop handle_len)
  else Except.ok ([], value)

/-- Embedding of `HrIndex::split_partition_id` (`hr_index.rs` lines
233-249). -/
def split_partition_id (value : List Nat) : Except IndexErr (List Nat × List Nat) :=
  if value.headD 0 = INDEX_VALUE_PARTITION_ID_FLAG ∧ value ≠ [] then
    if value.length < 9 then Except.error (IndexErr.partitionIdTooShort value.length)
    else Except.ok ((value.drop 1).take 8, (value.drop 1).drop 8)
  else Except.ok ([], value)

/-- Embedding of `HrIndex::split_restore_data` (`hr_index.rs` lines
252-263): a leading restore-data sentinel consumes the whole remaining
buffer (sentinel included). -/
def split_restore_data (value : List Nat) : Except IndexErr (List Nat × List Nat) :=
  Except.ok
    (if value.headD 0 = INDEX_VALUE_RESTORED_DATA_FLAG ∧ value ≠ [] then (value, [])
     else ([], value))

/-- The segment-peeling phase of `decode_index_value` (`hr_index.rs`
lines 144-171), factored out of the embedding so the framing lemmas can
address it directly: peel the optional common-handle, partition-id and
restore-data segments off `remaining`, reject unconsumed bytes, decode
the segment payloads, and build the `HrIndexValue` around the
already-computed tail fields. -/
def decodeSegTail (remaining : List Nat) (tail_len : Nat)
    (version_segment : Option (Nat × Nat)) (tail : Option HrIndexTail) :
    Except IndexErr HrIndexValue :=
  match split_common_handle remaining with
  | Except.error e => Except.error e
  | Except.ok chp =>
    match split_partition_id chp.2 with
    | Except.error e => Except.error e
    | Except.ok pp =>
      match split_restore_data pp.2 with
      | Except.error e => Except.error e
      | Except.ok rp =>
        if rp.2 ≠ ([] : List Nat) then Except.error (IndexErr.extraBytes rp.2)
        else
          match
            (if chp.1 = ([] : List Nat) then Except.ok none
             else
               match datum_decode chp.1 with
               | some ds => Except.ok (some (ds.map HrDatum.ofDatum))
               | none => Except.error IndexErr.datumCorrupted :
              Except IndexErr (Option (List HrDatum))) with
          | Except.error e => Except.error e
          | Except.ok common_handle =>
            let partition_id :=
              if pp.1 = ([] : List Nat) then none
              else some (toI64 (fromBeBytes pp.1))
            match
              (if rp.1 = ([] : List Nat) then Except.ok none
               else
                 match RowV2.from_bytes rp.1 with
                 | some r => Except.ok (some r)
                 | none => Except.error IndexErr.rowCorrupted :
                Except IndexErr (Option RowV2)) with
            | Except.error e => Except.error e
            | Except.ok restore_data =>
              Except.ok
                { tail_len := some tail_len
                  version_segment := version_segment
                  common_handle := common_handle
                  partition_id := partition_id
                  restore_data := restore_data
                  tail := tail }

/-- Embedding of `HrIndex::decode_index_value` (`hr_index.rs` lines
110-172).  Values no longer than the legacy threshold take the
old-collation early return (the whole payload becomes the tail); longer
values are classified by `get_index_version`, have the trailing
`tail_len` bytes split off (after skipping the 2-byte version segment
exactly when the version is 1), and the remainder is peeled into the
optional common-handle, partition-id and restore-data segments.  Rust
panics inside segment decoding and propagated sub-decoder errors both
surface as `Except.error`. -/
def decode_index_value (index_value : List Nat) : Except IndexErr HrIndexValue :=
  if index_value.length ≤ MAX_OLD_ENCODED_VALUE_LEN then
    Except.ok { tail := some (HrIndexTail.from_bytes index_value) }
  else
    match get_index_version index_value with
    | Except.error e => Except.error e
    | Except.ok index_version =>
      let tail_len := index_value.headD 0
      if index_value.length ≤ tail_len then
        Except.error (IndexErr.tailLenCorrupted tail_len)
      else
        let hdr := if index_version = 1 then 3 else 1
        let body := index_value.drop hdr
        let cut := index_value.length - hdr - tail_len
        let remaining := body.take cut
        let tailBytes := body.drop cut
        let version_segment :=
          if index_version = 1 then some (index_value.getD 1 0, index_value.getD 2 0)
          else none
        let tail :=
          if tailBytes = ([] : List Nat) then none
          else some (HrIndexTail.from_bytes tailBytes)
        decodeSegTail remaining tail_len version_segment tail

/-- Modelled from the spec: the common-handle segment layout described
for `decode_index_value` — the sentinel byte, a 2-byte big-endian length,
then that many bytes of datum-encoded handle columns. -/
def chSegOf : Option (List Nat) → List Nat
  | none => []
  | some bs => INDEX_VALUE_COMMON_HANDLE_FLAG :: beBytes 2 bs.length ++ bs

/-- Modelled from the spec: the partition-id segment layout — the
sentinel byte followed by the 8-byte big-endian id. -/
def pidSegOf : Option Nat → List Nat
  | none => []
  | some p => INDEX_VALUE_PARTITION_ID_FLAG :: beBytes 8 p

/-- Modelled from the spec: the restore-data segment — the row-v2 slice
itself, whose leading codec-version byte doubles as the sentinel. -/
def rdSegOf : Option (List Nat) → List Nat
  | none => []
  | some rb => rb

/-- Modelled from the spec: assembly of an index value out of its
segments, following the layout the spec describes for
`decode_index_value`: the tail-length byte, the 2-byte version segment
(version-1 values only), the optional flagged common-handle, partition-id
and restore-data segments in that order, then the tail bytes. -/
def assembleIndexValue (v1 : Bool) (ch : Option (List Nat)) (pid : Option Nat)
    (rd : Option (List Nat)) (tailB : List Nat) : List Nat :=
  tailB.length :: (if v1 then [INDEX_VALUE_VERSION_FLAG, 1] else []) ++
    chSegOf ch ++ pidSegOf pid ++ rdSegOf rd ++ tailB

/-! ## CSV output (`sst_to_text.rs`, `rwer.rs`) -/

/-- ASCII decimal digits of a natural number (fuelled by the number
itself; a digit is produced per division by ten). -/
def natDigitsF : Nat → Nat → List Nat
  | 0, _ => []
  | fuel + 1, n => if n < 10 then [48 + n] else natDigitsF fuel (n / 10) ++ [48 + n % 10]

/-- ASCII decimal rendering of a natural number. -/
def natDigits (n : Nat) : List Nat := natDigitsF (n + 1) n

/-- ASCII decimal rendering of an integer (`format!` of an `i64`). -/
def renderInt (x : Int) : List Nat :=
  if x < 0 then 45 :: natDigits (-x).toNat else natDigits x.toNat

/-- Modelled from the spec: `table::unflatten` reinterprets a decoded
flattened datum against the column descriptor (e.g. a packed integer into
a time).  The reinterpretation targets are payload types outside `src/`,
and no claim constrains them, so the model keeps the datum unchanged. -/
def unflatten (d : Datum) : Datum := d

/-- Embedding of the `ColumnInfo` fields `rwer.rs`/`sst_to_text.rs` read:
the default value bytes (`get_default_val`) and the string-type
discriminator used by `write_bytes_to`. -/
structure ColumnInfo where
  default_val : List Nat := []
  is_string_type : Bool := false
  deriving DecidableEq, Repr

/-- Embedding of `Schema` (`rwer.rs` lines 35-41); the column map is an
association list keyed by column id, and the schema name (unused by the
codec paths) is omitted. -/
structure Schema where
  columns : List (Int × ColumnInfo) := []
  column_ids : List Int := []
  primary_handle : Option Int := none
  common_handle : List Int := []

/-- Embedding of `Schema::handle_in_key`. -/
def Schema.handle_in_key (s : Schema) : Bool :=
  s.primary_handle.isSome || !s.common_handle.isEmpty

/-- Association-list lookup for the column / datum maps. -/
def alookup {α : Type} : List (Int × α) → Int → Option α
  | [], _ => none
  | (k, v) :: rest, i => if k = i then some v else alookup rest i

/-- Association-list removal (`HashMap::remove`). -/
def aerase {α : Type} : List (Int × α) → Int → List (Int × α)
  | [], _ => []
  | (k, v) :: rest, i => if k = i then aerase rest i else (k, v) :: aerase rest i

/-- Association-list insertion (`HashMap::insert`, replacing any previous
binding). -/
def ainsert {α : Type} (m : List (Int × α)) (i : Int) (v : α) : List (Int × α) :=
  (aerase m i) ++ [(i, v)]

/-- Embedding of `hr_datum::write_bytes_to` (`hr_datum.rs` lines 13-40):
the CSV cell rendering of one datum.  Integers render as decimal digits,
null as `\N`, min/max as their markers, byte strings quoted (`escape`,
which lives outside `src/`, is modelled as the identity on the bytes).
The remaining kinds format through upstream `Display` implementations the
spec does not fix; no claim constrains cell contents, so they render as
an empty cell here. -/
def write_bytes_to (ci : ColumnInfo) (d : Datum) : List Nat :=
  match d with
  | Datum.null => [92, 78]
  | Datum.i64 i => renderInt i
  | Datum.u64 u => natDigits u
  | Datum.bytes bs =>
    if ci.is_string_type then 34 :: bs ++ [34] else 34 :: bs ++ [34]
  | Datum.min => [77, 73, 78]
  | Datum.max => [77, 65, 88]
  | _ => []

/-- Pair up a decoded datum sequence as (column id, value) pairs
(`table::decode_row_vec`); an odd-length sequence is a decode error. -/
def datumPairs : List Datum → Option (List (Datum × Datum))
  | [] => some []
  | [_] => none
  | a :: b :: rest => (datumPairs rest).map fun ps => (a, b) :: ps

/-- A row-v1 column id datum (`i64`/`u64` only). -/
def datumId : Datum → Option Int
  | Datum.i64 i => some i
  | Datum.u64 u => some (u : Int)
  | _ => none

/-- Modelled from the spec: the v1 row layout behind
`RowV1::to_datums` / `table::decode_row` — an alternating sequence of
datum-encoded column ids and values; ids present in the caller's column
map are kept (unflattened against their descriptor), others are
skipped. -/
def RowV1.to_datums (columns : List (Int × ColumnInfo)) (val : List Nat) :
    Option (List (Int × Datum)) :=
  (datum_decode val).bind fun ds =>
    (datumPairs ds).bind fun prs =>
      (prs.mapM fun p => (datumId p.1).map fun i => (i, p.2)).map fun prs2 =>
        (prs2.filter fun pr => (alookup columns pr.1).isSome).map fun pr =>
          (pr.1, unflatten pr.2)

/-- Modelled from the spec: `RowV2::to_datums` walks the v2 slice's id
and offset tables.  The spec fixes the table order but not the field
widths, and no claim depends on v2 row contents, so the v2 branch is
modelled as undecodable. -/
def RowV2.to_datums (_columns : List (Int × ColumnInfo)) (_val : List Nat) :
    Option (List (Int × Datum)) :=
  none

/-- Embedding of `HrValue::to_datums` (`hr_value.rs` lines 179-190): an
empty value is an assertion failure, a leading row-v2 codec-version byte
selects the v2 decoder, anything else the v1 decoder. -/
def HrValue.to_datums (columns : List (Int × ColumnInfo)) (val : List Nat) :
    Option (List (Int × Datum)) :=
  match val with
  | [] => none
  | b :: _ =>
    if b = 128 then RowV2.to_datums columns val
    else RowV1.to_datums columns val

/-- The error cases of `kv_to_csv`: the two explicit `format!` errors for
a handle with no schema column to land in, plus the propagated row / key /
handle-datum / default-value decode failures (Rust panics inside the
conversion also surface here; `put_line` `unwrap`s the result either
way). -/
inductive CsvErr where
  | rowErr
  | keyErr
  | emptyPrimaryHandle
  | emptyCommonHandle
  | handleDatumErr
  | missingColumn
  | badDefault
  deriving DecidableEq, Repr

/-- Embedding of the per-column loop of `kv_to_csv` (`sst_to_text.rs`
lines 60-76): each column id takes its datum from the map (removing it),
falls back to the column's decoded default value, else to null; the datum
is masked and rendered, and cells are joined by commas (one trailing
comma per cell, popped by the caller). -/
def csvCells (schema : Schema) : List Int → List (Int × Datum) → Except CsvErr (List Nat)
  | [], _ => Except.ok []
  | id :: rest, dm =>
    match
      (match alookup dm id with
       | some d => Except.ok (d, aerase dm id)
       | none =>
         match alookup schema.columns id with
         | none => Except.error CsvErr.missingColumn
         | some ci =>
           if ci.default_val = ([] : List Nat) then Except.ok (Datum.null, dm)
           else
             match read_datum ci.default_val with
             | some p => Except.ok (unflatten p.1, dm)
             | none => Except.error CsvErr.badDefault :
        Except CsvErr (Datum × List (Int × Datum))) with
    | Except.error e => Except.error e
    | Except.ok dd =>
      match alookup schema.columns id with
      | none => Except.error CsvErr.missingColumn
      | some ci =>
        match csvCells schema rest dd.2 with
        | Except.error e => Except.error e
        | Except.ok tailBytes =>
          Except.ok (write_bytes_to ci (workload_sim_mask dd.1) ++ 44 :: tailBytes)

/-- Embedding of `kv_to_csv` (`sst_to_text.rs` lines 33-80): decode the
row value into a datum map, merge in the handle columns recovered from
the key when the schema places the handle in the key, then render the
schema's columns in order and drop the trailing comma. -/
def kv_to_csv (schema : Schema) (key val : List Nat) : Except CsvErr (List Nat) :=
  match HrValue.to_datums schema.columns val with
  | none => Except.error CsvErr.rowErr
  | some dm0 =>
    match
      (if schema.handle_in_key then
         match HrDataKey.from_encoded key with
         | none => Except.error CsvErr.keyErr
         | some hr =>
           match hr.handle with
           | HrHandle.int pk =>
             match schema.primary_handle with
             | none => Except.error CsvErr.emptyPrimaryHandle
             | some pid => Except.ok (ainsert dm0 pid (Datum.i64 pk))
           | HrHandle.common ch =>
             if schema.common_handle.isEmpty then Except.error CsvErr.emptyCommonHandle
             else
               match (ch.zip schema.common_handle).mapM
                   (fun p => (HrDatum.intoDatum p.1).map fun d => (p.2, d)) with
               | none => Except.error CsvErr.handleDatumErr
               | some prs => Except.ok (prs.foldl (fun m pr => ainsert m pr.1 pr.2) dm0)
       else Except.ok dm0 : Except CsvErr (List (Int × Datum))) with
    | Except.error e => Except.error e
    | Except.ok dm =>
      match csvCells schema schema.column_ids dm with
      | Except.error e => Except.error e
      | Except.ok res => Except.ok res.dropLast

/-! ## Write markers and the CSV dispatch (`rwer.rs` lines 185-203) -/

/-- Modelled from the spec: the MVCC write-marker types. -/
inductive WriteType where
  | put
  | del
  | lock
  | rollback
  deriving DecidableEq, Repr

/-- Modelled from the spec: `WriteRef` — write type, start timestamp,
rollback-overlap flag, optional gc fence and optional inlined short
value. -/
structure WriteRefT where
  write_type : WriteType
  start_ts : Nat
  has_overlapped_rollback : Bool := false
  gc_fence : Option Nat := none
  short_value : Option (List Nat) := none
  deriving DecidableEq, Repr

/-- Modelled from the spec: the write-type tag byte, taken at its
upstream ASCII value. -/
def writeTypeOfByte (b : Nat) : Option WriteType :=
  if b = 80 then some WriteType.put
  else if b = 68 then some WriteType.del
  else if b = 76 then some WriteType.lock
  else if b = 82 then some WriteType.rollback
  else none

/-- Modelled from the spec: the flagged optional sections following the
write marker's type byte and start-timestamp varint — a rollback-overlap
marker byte, a flagged gc-fence varint, and a flagged length-prefixed
short value (fuelled by the remaining length; every step consumes at
least the flag byte). -/
def parseWriteExtras : Nat → List Nat → WriteRefT → Option WriteRefT
  | _, [], w => some w
  | 0, _ :: _, _ => none
  | fuel + 1, f :: rest, w =>
    if f = 82 then parseWriteExtras fuel rest { w with has_overlapped_rollback := true }
    else if f = 70 then
      (decodeVarU64 rest).bind fun p =>
        parseWriteExtras fuel p.2 { w with gc_fence := some p.1 }
    else if f = 118 then
      match rest with
      | [] => none
      | len :: rest2 =>
        if rest2.length < len then none
        else parseWriteExtras fuel (rest2.drop len) { w with short_value := some (rest2.take len) }
    else none

/-- Modelled from the spec: `WriteRef::parse` — the fixed type-tag byte,
the start-timestamp varint, then the flagged optional sections. -/
def WriteRefParse (val : List Nat) : Option WriteRefT :=
  match val with
  | [] => none
  | t :: rest =>
    (writeTypeOfByte t).bind fun wt =>
      (decodeVarU64 rest).bind fun p =>
        parseWriteExtras p.2.length p.2
          { write_type := wt, start_ts := p.1 }

/-- Embedding of `kv_to_csv_write` (`sst_to_text.rs` lines 122-132): the
outer `none` is the `WriteRef::parse` unwrap panic; otherwise a write
marker without a short value yields no CSV entry, and one with a short
value converts the short value through `kv_to_csv`. -/
def kv_to_csv_write (schema : Schema) (key val : List Nat) :
    Option (Option (Except CsvErr (List Nat))) :=
  match WriteRefParse val with
  | none => none
  | some w => some (w.short_value.map fun sv => kv_to_csv schema key sv)

/-- Embedding of the column families `put_line` dispatches on. -/
inductive CfName where
  | cf_default
  | cf_write
  | cf_lock
  deriving DecidableEq, Repr

/-- Embedding of `DataType` (`rwer.rs` lines 70-73): the per-file data
kind detected from the first key's shape. -/
inductive DataType where
  | record
  | index
  deriving DecidableEq, Repr

/-- The observable outcome of one `put_line` call in CSV mode: a line
written to the file, the entry silently skipped (`return Ok(())` with no
output), or a Rust panic (`unwrap` / `unreachable!`). -/
inductive CsvOut where
  | line (bytes : List Nat)
  | skipped
  | failed
  deriving DecidableEq, Repr

/-- Embedding of the CSV arm of `TextWriter::put_line` (`rwer.rs` lines
185-203), with the writer's column family and detected data kind as
arguments: default-family record entries convert through `kv_to_csv`
(`unwrap`ped), write-family record entries through `kv_to_csv_write`
(skipped entirely when it yields nothing), index entries of either family
are skipped, and any other family is the `unreachable!` panic; a produced
row gets a trailing newline. -/
def put_line_csv (cf : CfName) (dt : DataType) (schema : Schema) (key val : List Nat) :
    CsvOut :=
  match cf, dt with
  | CfName.cf_default, DataType.record =>
    match kv_to_csv schema key val with
    | Except.ok bytes => CsvOut.line (bytes ++ [10])
    | Except.error _ => CsvOut.failed
  | CfName.cf_write, DataType.record =>
    match kv_to_csv_write schema key val with
    | none => CsvOut.failed
    | some none => CsvOut.skipped
    | some (some (Except.ok bytes)) => CsvOut.line (bytes ++ [10])
    | some (some (Except.error _)) => CsvOut.failed
  | CfName.cf_default, DataType.index => CsvOut.skipped
  | CfName.cf_write, DataType.index => CsvOut.skipped
  | CfName.cf_lock, _ => CsvOut.failed

/-- Structured well-formedness of a row key: ids and handles in machine
range, and common-handle datums in the supported key-encodable subset (in
their canonical human-readable form, as one decoding produces them). -/
def HrKeyOk (x : HrDataKey) : Prop :=
  -(2 ^ 63) ≤ x.table_id ∧ x.table_id < 2 ^ 63 ∧
  (∀ ts, x.ts = some ts → ts < 2 ^ 64) ∧
  match x.handle with
  | HrHandle.int h => -(2 ^ 63) ≤ h ∧ h < 2 ^ 63
  | HrHandle.common hds =>
    ∃ ds : List Datum, hds = ds.map HrDatum.ofDatum ∧ ∀ d ∈ ds, KeyDatumOk d

end BackupText

namespace BackupText

/-! ## Theorems: integer and string masking (claims C7, C8) -/

theorem length_hash_bytes (bytes : List Nat) (size : Nat) :
    (hash_bytes bytes size).length = size := by
  simp [hash_bytes]

theorem fromLeBytes_hash_lt (bytes : List Nat) :
    fromLeBytes (hash_bytes bytes 8) < 2 ^ 64 := by
  have h : ∀ l : List Nat, (∀ b ∈ l, b < 256) → fromLeBytes l < 256 ^ l.length := by
    intro l
    induction l with
    | nil => intro _; simp [fromLeBytes]
    | cons b rest ih =>
      intro hb
      have h1 : b < 256 := hb b (by simp)
      have h2 : fromLeBytes rest < 256 ^ rest.length :=
        ih (fun x hx => hb x (by simp [hx]))
      simp only [fromLeBytes, List.length_cons, pow_succ]
      calc b + 256 * fromLeBytes rest
          ≤ 255 + 256 * fromLeBytes rest := by omega
        _ < 256 ^ rest.length * 256 := by omega
  have hlen := length_hash_bytes bytes 8
  have hmem : ∀ b ∈ hash_bytes bytes 8, b < 256 := by
    intro b hb
    simp only [hash_bytes, List.mem_map] at hb
    obtain ⟨i, _, rfl⟩ := hb
    exact Nat.mod_lt _ (by norm_num)
  calc fromLeBytes (hash_bytes bytes 8) < 256 ^ (hash_bytes bytes 8).length := h _ hmem
    _ = 2 ^ 64 := by rw [hlen]; norm_num

theorem toI64_range (n : Nat) (h : n < 2 ^ 64) :
    -(2 ^ 63) ≤ toI64 n ∧ toI64 n < 2 ^ 63 := by
  unfold toI64
  split <;> omega

theorem neg_tmod_left : ∀ a b : Int, (-a).tmod b = -(a.tmod b)
  | Int.ofNat 0, b => by simp
  | Int.ofNat (m + 1), b => by
      show (Int.negSucc m).tmod b = -((Int.ofNat (m + 1)).tmod b)
      rcases b with n | n <;> rfl
  | Int.negSucc m, b => by
      show (Int.ofNat (m + 1)).tmod b = -((Int.negSucc m).tmod b)
      rcases b with n | n <;> simp [Int.tmod]

theorem tmod_bounds (a b : Int) (hb : 0 < b) : -b < a.tmod b ∧ a.tmod b < b := by
  rcases le_or_lt 0 a with ha | ha
  · have h1 := Int.tmod_lt_of_pos a hb
    have h2 := Int.tmod_nonneg b ha
    omega
  · have h0 : a.tmod b = -((-a).tmod b) := by
      rw [neg_tmod_left, neg_neg]
    have h1 := Int.tmod_lt_of_pos (-a) hb
    have h2 := Int.tmod_nonneg b (show (0 : Int) ≤ -a by omega)
    omega

/-- Claim C7: for every signed 64-bit input, `mask_i64` produces a value
representable in the narrowest signed SQL integer width (8/16/24/32/64 bit)
that can represent the input, and `mask_u64` does the same for the unsigned
widths. -/
theorem mask_int_width_preserved (x : Int) (u : Nat)
    (hx : -(2 ^ 63) ≤ x ∧ x ≤ 2 ^ 63 - 1) (hu : u ≤ 2 ^ 64 - 1) :
    (((-128 ≤ x ∧ x ≤ 127) → (-128 ≤ mask_i64 x ∧ mask_i64 x ≤ 127)) ∧
     ((-32768 ≤ x ∧ x ≤ 32767) → (-32768 ≤ mask_i64 x ∧ mask_i64 x ≤ 32767)) ∧
     ((I24_MIN ≤ x ∧ x ≤ I24_MAX) → (I24_MIN ≤ mask_i64 x ∧ mask_i64 x ≤ I24_MAX)) ∧
     ((-(2 ^ 31) ≤ x ∧ x ≤ 2 ^ 31 - 1) →
       (-(2 ^ 31) ≤ mask_i64 x ∧ mask_i64 x ≤ 2 ^ 31 - 1)) ∧
     (-(2 ^ 63) ≤ mask_i64 x ∧ mask_i64 x ≤ 2 ^ 63 - 1)) ∧
    ((u ≤ 255 → mask_u64 u ≤ 255) ∧
     (u ≤ 65535 → mask_u64 u ≤ 65535) ∧
     (u ≤ U24_MAX → mask_u64 u ≤ U24_MAX) ∧
     (u ≤ 2 ^ 32 - 1 → mask_u64 u ≤ 2 ^ 32 - 1) ∧
     mask_u64 u ≤ 2 ^ 64 - 1) := by
  have hhash := fromLeBytes_hash_lt (leBytes 8 (toU64 x))
  have ht := toI64_range _ hhash
  have t128 := tmod_bounds (toI64 (fromLeBytes (hash_bytes (leBytes 8 (toU64 x)) 8))) 128
    (by norm_num)
  have t16 := tmod_bounds (toI64 (fromLeBytes (hash_bytes (leBytes 8 (toU64 x)) 8))) 32768
    (by norm_num)
  have t24 := tmod_bounds (toI64 (fromLeBytes (hash_bytes (leBytes 8 (toU64 x)) 8)))
    (I24_MAX + 1) (by unfold I24_MAX; norm_num)
  have t32 := tmod_bounds (toI64 (fromLeBytes (hash_bytes (leBytes 8 (toU64 x)) 8)))
    (2 ^ 31) (by norm_num)
  have u256 := Nat.mod_lt (fromLeBytes (hash_bytes (leBytes 8 u) 8))
    (show 0 < 256 by norm_num)
  have u16 := Nat.mod_lt (fromLeBytes (hash_bytes (leBytes 8 u) 8))
    (show 0 < 65536 by norm_num)
  have u24 := Nat.mod_lt (fromLeBytes (hash_bytes (leBytes 8 u) 8))
    (show 0 < U24_MAX + 1 by unfold U24_MAX; norm_num)
  have u32 := Nat.mod_lt (fromLeBytes (hash_bytes (leBytes 8 u) 8))
    (show 0 < 2 ^ 32 by norm_num)
  have u64b := Nat.mod_lt (fromLeBytes (hash_bytes (leBytes 8 u) 8))
    (show 0 < 2 ^ 64 by norm_num)
  unfold mask_i64 mask_u64
  simp only []
  unfold I24_MIN I24_MAX U24_MAX at *
  refine ⟨⟨?_, ?_, ?_, ?_, ?_⟩, ⟨?_, ?_, ?_, ?_, ?_⟩⟩ <;>
    first
      | (intro h; repeat' split)
      | repeat' split
  all_goals omega

/-- Witness for C7 at concrete inputs. -/
theorem mask_int_width_preserved_witness :
    -128 ≤ mask_i64 42 ∧ mask_i64 42 ≤ 127 := by
  exact (mask_int_width_preserved 42 0 (by norm_num) (by norm_num)).1.1 (by norm_num)

theorem length_hexEncode (l : List Nat) : (hexEncode l).length = 2 * l.length := by
  induction l with
  | nil => simp [hexEncode]
  | cons b r ih =>
    simp only [hexEncode, List.length_cons]
    omega

/-- Claim C8 (amended): for inputs of length at least 2, `mask_string`
returns a same-length output made of the hex expansion of `len / 2` hash
bytes plus one trailing `*` (byte 42) exactly when the length is odd; for
inputs of length 0 or 1 the output is instead the two hex characters of
one hash byte. -/
theorem mask_string_shape (b : List Nat) :
    (2 ≤ b.length →
      (mask_string b).length = b.length ∧
      mask_string b = hexEncode (hash_bytes b (b.length / 2)) ++
        (if b.length % 2 = 1 then [42] else [])) ∧
    (b.length < 2 → mask_string b = hexEncode (hash_bytes b 1)) := by
  constructor
  · intro h2
    have hif : ¬ b.length < 2 := by omega
    have hh := length_hash_bytes b (b.length / 2)
    have hx := length_hexEncode (hash_bytes b (b.length / 2))
    unfold mask_string
    simp only [if_neg hif]
    constructor
    · simp only [List.length_append, List.length_replicate]
      omega
    · by_cases hodd : b.length % 2 = 1
      · rw [if_pos hodd]
        have h1 : b.length - (hexEncode (hash_bytes b (b.length / 2))).length = 1 := by
          omega
        rw [h1]
        rfl
      · rw [if_neg hodd]
        have h0 : b.length - (hexEncode (hash_bytes b (b.length / 2))).length = 0 := by
          omega
        rw [h0]
        rfl
  · intro hlt
    have hh := length_hash_bytes b 1
    have hx := length_hexEncode (hash_bytes b 1)
    unfold mask_string
    simp only [if_pos hlt]
    have h0 : 2 - (hexEncode (hash_bytes b (2 / 2))).length = 0 := by
      have : (2 : Nat) / 2 = 1 := rfl
      rw [this]
      omega
    rw [h0]
    simp

/-- Witness for C8 at a concrete odd-length input. -/
theorem mask_string_shape_witness :
    (mask_string [1, 2, 3]).length = [1, 2, 3].length ∧
    mask_string [1, 2, 3] = hexEncode (hash_bytes [1, 2, 3] ([1, 2, 3].length / 2)) ++
      (if [1, 2, 3].length % 2 = 1 then [42] else []) :=
  (mask_string_shape [1, 2, 3]).1 (by norm_num)

/-- Counterexample for C8 as stated: on the empty input the output length
is 2, not the input length 0 (and on one-byte inputs it is 2 with no `*`
padding), so "output length equals the input's length" fails. -/
theorem mask_string_c8_counterexample :
    (mask_string []).length ≠ ([] : List Nat).length ∧
    (mask_string [97]).length ≠ [97].length := by
  constructor <;> decide

/-! ## Theorems: payload round trips and claim C1 -/

theorem duration_parse_toDisplay (d : Duration) (h : d.WellFormed) :
    Duration.parse d.toDisplay d.fsp = some d := by
  obtain ⟨nanos, fsp⟩ := d
  obtain ⟨h6, hdvd, hrange⟩ := h
  dsimp only at h6 hdvd hrange ⊢
  have hdvdn : (10 : Nat) ^ (9 - fsp) ∣ nanos.natAbs := by
    have h2 : ((10 : Int) ^ (9 - fsp)).natAbs ∣ nanos.natAbs :=
      Int.natAbs_dvd_natAbs.mpr hdvd
    simpa [Int.natAbs_pow] using h2
  have hfrac : nanos.natAbs % 1000000000 / 10 ^ (9 - fsp) < 10 ^ fsp := by
    apply Nat.div_lt_of_lt_mul
    have h1 : nanos.natAbs % 1000000000 < 1000000000 := Nat.mod_lt _ (by norm_num)
    have h2 : (10 : Nat) ^ (9 - fsp) * 10 ^ fsp = 10 ^ 9 := by
      rw [← pow_add]
      congr 1
      omega
    rw [h2]
    norm_num
    omega
  simp only [Duration.parse, Duration.toDisplay, roundFracNanos, decide_eq_true_eq]
  rw [if_pos ⟨h6, Nat.mod_lt _ (by norm_num), Nat.mod_lt _ (by norm_num), by omega, hfrac,
    by omega⟩]
  simp only [Option.some.injEq, Duration.mk.injEq, and_true]
  interval_cases fsp <;>
  · simp only [Nat.reduceSub, Nat.reducePow] at hdvdn ⊢
    split <;> (try split) <;>
      (try simp only [Int.natAbs_neg, Int.natAbs_ofNat]) <;> omega

theorem decimal_parse_toDisplay (d : Decimal) (h : d.WellFormed) :
    Decimal.parseDec d.toDisplay =
      some { neg := d.neg, mantissa := d.mantissa, frac := d.frac, prefPrec := none } := by
  obtain ⟨ne, m, f, p⟩ := d
  obtain ⟨h65, -⟩ := h
  unfold Decimal.intPart at h65
  simp only [Decimal.parseDec, Decimal.toDisplay]
  rw [if_pos ⟨h65, Nat.mod_lt _ (by positivity)⟩]
  simp only [Option.some.injEq, Decimal.mk.injEq, true_and, and_true]
  rw [Nat.mul_comm]
  exact Nat.div_add_mod m (10 ^ f)

theorem hrbytes_roundtrip (b : List Nat) : (HrBytes.ofBytes b).intoBytes = b := by
  unfold HrBytes.ofBytes
  split <;> rfl

/-- Claim C1: for every constructible datum except `Set`, the
human-readable round trip (`HrDatum::from` then `Into<Datum>`) succeeds
and produces a datum equal to the original under the source's equality
(which ignores the decimal preferred-precision side information, here the
`stripPref` erasure); for decimals the preferred precision is carried
explicitly, so the round-tripped datum re-encodes bit-identically. -/
theorem hr_datum_roundtrip (d : Datum) (hwf : d.WellFormed) (hset : d.isSet = false) :
    HrDatum.intoDatum (HrDatum.ofDatum d) = some d.withEffectivePrec ∧
    d.withEffectivePrec.stripPref = d.stripPref ∧
    Datum.encodeDecBytes d.withEffectivePrec = Datum.encodeDecBytes d := by
  cases d with
  | null => exact ⟨rfl, rfl, rfl⟩
  | i64 v => exact ⟨rfl, rfl, rfl⟩
  | u64 v => exact ⟨rfl, rfl, rfl⟩
  | f64 v => exact ⟨rfl, rfl, rfl⟩
  | min => exact ⟨rfl, rfl, rfl⟩
  | max => exact ⟨rfl, rfl, rfl⟩
  | json j => exact ⟨rfl, rfl, rfl⟩
  | time t => exact ⟨rfl, rfl, rfl⟩
  | set s => simp [Datum.isSet] at hset
  | bytes b =>
    refine ⟨?_, rfl, rfl⟩
    simp [HrDatum.ofDatum, HrDatum.intoDatum, hrbytes_roundtrip, Datum.withEffectivePrec]
  | enum e =>
    refine ⟨?_, rfl, rfl⟩
    simp [HrDatum.ofDatum, HrDatum.intoDatum, hrbytes_roundtrip, Datum.withEffectivePrec]
  | dur du =>
    refine ⟨?_, rfl, rfl⟩
    have hdu : du.WellFormed := hwf
    simp only [HrDatum.ofDatum, HrDatum.intoDatum, HrDuration.ofDuration]
    rw [duration_parse_toDisplay du hdu]
    rfl
  | dec de =>
    have hde : de.WellFormed := hwf
    obtain ⟨ne, m, f, p⟩ := de
    refine ⟨?_, ?_, ?_⟩
    · simp only [HrDatum.ofDatum, HrDatum.intoDatum, HrDecimal.ofDecimal,
        HrDecimal.to_decimal]
      rw [decimal_parse_toDisplay _ hde]
      cases p <;> rfl
    · cases p <;> rfl
    · cases p <;> rfl

/-- Witness for C1 at a concrete duration datum. -/
theorem hr_datum_roundtrip_witness :
    HrDatum.intoDatum (HrDatum.ofDatum (Datum.dur ⟨1500000000, 1⟩)) =
      some (Datum.dur ⟨1500000000, 1⟩).withEffectivePrec :=
  (hr_datum_roundtrip (Datum.dur ⟨1500000000, 1⟩) (by decide) rfl).1

/-! ## Theorems: time masking (claim C6) -/

theorem last_day_of_month_bounds (y m : Nat) :
    28 ≤ last_day_of_month y m ∧ last_day_of_month y m ≤ 31 := by
  constructor <;> (unfold last_day_of_month; repeat' split) <;> omega

theorem time_fsp_le (t : Time) : t.fsp ≤ 6 := by
  unfold Time.fsp Time.fspTt
  have h : t.packed % 16 < 16 := Nat.mod_lt _ (by norm_num)
  split <;> omega

theorem fspTtOf_lt (tt : TimeType) (fsp : Nat) (h : fsp ≤ 6) : fspTtOf tt fsp < 16 := by
  cases tt <;> simp only [fspTtOf] <;> omega

theorem packTime_unpack (y mo dd hh mi ss uu ft : Nat)
    (hy : y < 16384) (hmo : mo < 16) (hd : dd < 32) (hhh : hh < 32)
    (hmi : mi < 64) (hss : ss < 64) (huu : uu < 1048576) (hft : ft < 16) :
    Time.year ⟨packTime y mo dd hh mi ss uu ft⟩ = y ∧
    Time.month ⟨packTime y mo dd hh mi ss uu ft⟩ = mo ∧
    Time.day ⟨packTime y mo dd hh mi ss uu ft⟩ = dd ∧
    Time.hour ⟨packTime y mo dd hh mi ss uu ft⟩ = hh ∧
    Time.minute ⟨packTime y mo dd hh mi ss uu ft⟩ = mi ∧
    Time.second ⟨packTime y mo dd hh mi ss uu ft⟩ = ss ∧
    Time.micro ⟨packTime y mo dd hh mi ss uu ft⟩ = uu ∧
    Time.fspTt ⟨packTime y mo dd hh mi ss uu ft⟩ = ft := by
  unfold Time.year Time.month Time.day Time.hour Time.minute Time.second Time.micro
    Time.fspTt packTime
  norm_num
  refine ⟨?_, ?_, ?_, ?_, ?_, ?_, ?_, ?_⟩ <;> omega

theorem from_slice_clamped_valid (y mo d h mi s u : Nat) (tt : TimeType) (fsp : Nat)
    (hfsp : fsp ≤ 6) (hy : y < 10000) :
    ∃ t' : Time,
      Time.from_slice y (mo % 12 + 1) (d % last_day_of_month y (mo % 12 + 1) + 1)
        (h % 24) (mi % 60) (s % 60) (u % 1000000) tt fsp = some t' ∧
      t'.year = y ∧ t'.month = mo % 12 + 1 ∧
      t'.day = d % last_day_of_month y (mo % 12 + 1) + 1 ∧
      t'.hour = h % 24 ∧ t'.minute = mi % 60 ∧ t'.second = s % 60 ∧
      t'.micro = u % 1000000 := by
  have hld := last_day_of_month_bounds y (mo % 12 + 1)
  have hday : d % last_day_of_month y (mo % 12 + 1) < last_day_of_month y (mo % 12 + 1) :=
    Nat.mod_lt _ (by omega)
  have hcond : fsp ≤ 6 ∧ y < 10000 ∧ 1 ≤ mo % 12 + 1 ∧ mo % 12 + 1 ≤ 12 ∧
      1 ≤ d % last_day_of_month y (mo % 12 + 1) + 1 ∧
      d % last_day_of_month y (mo % 12 + 1) + 1 ≤ last_day_of_month y (mo % 12 + 1) ∧
      h % 24 < 24 ∧ mi % 60 < 60 ∧ s % 60 < 60 ∧ u % 1000000 < 1000000 := by
    have h1 : mo % 12 < 12 := Nat.mod_lt _ (by norm_num)
    have h2 : h % 24 < 24 := Nat.mod_lt _ (by norm_num)
    have h3 : mi % 60 < 60 := Nat.mod_lt _ (by norm_num)
    have h4 : s % 60 < 60 := Nat.mod_lt _ (by norm_num)
    have h5 : u % 1000000 < 1000000 := Nat.mod_lt _ (by norm_num)
    exact ⟨hfsp, hy, by omega, by omega, by omega, by omega, h2, h3, h4, h5⟩
  obtain ⟨e1, e2, e3, e4, e5, e6, e7, -⟩ :=
    packTime_unpack y (mo % 12 + 1) (d % last_day_of_month y (mo % 12 + 1) + 1)
      (h % 24) (mi % 60) (s % 60) (u % 1000000) (fspTtOf tt fsp)
      (by omega) (by omega) (by omega) (by omega) (by omega) (by omega) (by omega)
      (fspTtOf_lt tt fsp hfsp)
  refine ⟨_, ?_, e1, e2, e3, e4, e5, e6, e7⟩
  unfold Time.from_slice
  rw [if_pos hcond]

/-- Claim C6: masking a date/time datum always succeeds, never surfaces an
error to the caller of `workload_sim_mask`, and yields a calendar-valid
result: month 1-12, day 1 to the last day of that month/year, hour 0-23,
minute/second 0-59, microsecond 0-999999, and a year in 1970-2035 for
timestamps but 0-9999 for plain dates and datetimes. -/
theorem mask_time_calendar_valid (t : Time) :
    ∃ t', mask_time t = some t' ∧
      workload_sim_mask (Datum.time t) = Datum.time t' ∧
      (1 ≤ t'.month ∧ t'.month ≤ 12) ∧
      (1 ≤ t'.day ∧ t'.day ≤ last_day_of_month t'.year t'.month) ∧
      t'.hour ≤ 23 ∧ t'.minute ≤ 59 ∧ t'.second ≤ 59 ∧ t'.micro ≤ 999999 ∧
      (t.get_time_type = TimeType.tTimestamp → 1970 ≤ t'.year ∧ t'.year ≤ 2035) ∧
      (t.get_time_type ≠ TimeType.tTimestamp → t'.year ≤ 9999) := by
  have hfsp := time_fsp_le t
  cases htt : t.get_time_type with
  | tDate =>
    obtain ⟨t', hsome, hy, hmo, hd, hh, hmi, hs, hu⟩ :=
      from_slice_clamped_valid (Time.year ⟨mask_u64 (t.packed / 16 * 16)⟩ % 10000)
        (Time.month ⟨mask_u64 (t.packed / 16 * 16)⟩)
        (Time.day ⟨mask_u64 (t.packed / 16 * 16)⟩)
        (Time.hour ⟨mask_u64 (t.packed / 16 * 16)⟩)
        (Time.minute ⟨mask_u64 (t.packed / 16 * 16)⟩)
        (Time.second ⟨mask_u64 (t.packed / 16 * 16)⟩)
        (Time.micro ⟨mask_u64 (t.packed / 16 * 16)⟩)
        TimeType.tDate t.fsp hfsp (Nat.mod_lt _ (by norm_num))
    have hmask : mask_time t = some t' := by
      simp only [mask_time, htt]
      exact hsome
    refine ⟨t', hmask, ?_, ?_, ?_, ?_, ?_, ?_, ?_, ?_, ?_⟩
    · simp only [workload_sim_mask, hmask, Option.getD_some]
    · omega
    · rw [hd, hy, hmo]
      have := last_day_of_month_bounds
        (Time.year ⟨mask_u64 (t.packed / 16 * 16)⟩ % 10000)
        (Time.month ⟨mask_u64 (t.packed / 16 * 16)⟩ % 12 + 1)
      have hdd : Time.day ⟨mask_u64 (t.packed / 16 * 16)⟩ %
          last_day_of_month (Time.year ⟨mask_u64 (t.packed / 16 * 16)⟩ % 10000)
            (Time.month ⟨mask_u64 (t.packed / 16 * 16)⟩ % 12 + 1) <
          last_day_of_month (Time.year ⟨mask_u64 (t.packed / 16 * 16)⟩ % 10000)
            (Time.month ⟨mask_u64 (t.packed / 16 * 16)⟩ % 12 + 1) :=
        Nat.mod_lt _ (by omega)
      omega
    · have : Time.hour ⟨mask_u64 (t.packed / 16 * 16)⟩ % 24 < 24 :=
        Nat.mod_lt _ (by norm_num)
      omega
    · have : Time.minute ⟨mask_u64 (t.packed / 16 * 16)⟩ % 60 < 60 :=
        Nat.mod_lt _ (by norm_num)
      omega
    · have : Time.second ⟨mask_u64 (t.packed / 16 * 16)⟩ % 60 < 60 :=
        Nat.mod_lt _ (by norm_num)
      omega
    · have : Time.micro ⟨mask_u64 (t.packed / 16 * 16)⟩ % 1000000 < 1000000 :=
        Nat.mod_lt _ (by norm_num)
      omega
    · intro hts
      cases hts
    · intro _
      have : Time.year ⟨mask_u64 (t.packed / 16 * 16)⟩ % 10000 < 10000 :=
        Nat.mod_lt _ (by norm_num)
      omega
  | tDateTime =>
    obtain ⟨t', hsome, hy, hmo, hd, hh, hmi, hs, hu⟩ :=
      from_slice_clamped_valid (Time.year ⟨mask_u64 (t.packed / 16 * 16)⟩ % 10000)
        (Time.month ⟨mask_u64 (t.packed / 16 * 16)⟩)
        (Time.day ⟨mask_u64 (t.packed / 16 * 16)⟩)
        (Time.hour ⟨mask_u64 (t.packed / 16 * 16)⟩)
        (Time.minute ⟨mask_u64 (t.packed / 16 * 16)⟩)
        (Time.second ⟨mask_u64 (t.packed / 16 * 16)⟩)
        (Time.micro ⟨mask_u64 (t.packed / 16 * 16)⟩)
        TimeType.tDateTime t.fsp hfsp (Nat.mod_lt _ (by norm_num))
    have hmask : mask_time t = some t' := by
      simp only [mask_time, htt]
      exact hsome
    refine ⟨t', hmask, ?_, ?_, ?_, ?_, ?_, ?_, ?_, ?_, ?_⟩
    · simp only [workload_sim_mask, hmask, Option.getD_some]
    · omega
    · rw [hd, hy, hmo]
      have := last_day_of_month_bounds
        (Time.year ⟨mask_u64 (t.packed / 16 * 16)⟩ % 10000)
        (Time.month ⟨mask_u64 (t.packed / 16 * 16)⟩ % 12 + 1)
      have hdd : Time.day ⟨mask_u64 (t.packed / 16 * 16)⟩ %
          last_day_of_month (Time.year ⟨mask_u64 (t.packed / 16 * 16)⟩ % 10000)
            (Time.month ⟨mask_u64 (t.packed / 16 * 16)⟩ % 12 + 1) <
          last_day_of_month (Time.year ⟨mask_u64 (t.packed / 16 * 16)⟩ % 10000)
            (Time.month ⟨mask_u64 (t.packed / 16 * 16)⟩ % 12 + 1) :=
        Nat.mod_lt _ (by omega)
      omega
    · have : Time.hour ⟨mask_u64 (t.packed / 16 * 16)⟩ % 24 < 24 :=
        Nat.mod_lt _ (by norm_num)
      omega
    · have : Time.minute ⟨mask_u64 (t.packed / 16 * 16)⟩ % 60 < 60 :=
        Nat.mod_lt _ (by norm_num)
      omega
    · have : Time.second ⟨mask_u64 (t.packed / 16 * 16)⟩ % 60 < 60 :=
        Nat.mod_lt _ (by norm_num)
      omega
    · have : Time.micro ⟨mask_u64 (t.packed / 16 * 16)⟩ % 1000000 < 1000000 :=
        Nat.mod_lt _ (by norm_num)
      omega
    · intro hts
      cases hts
    · intro _
      have : Time.year ⟨mask_u64 (t.packed / 16 * 16)⟩ % 10000 < 10000 :=
        Nat.mod_lt _ (by norm_num)
      omega
  | tTimestamp =>
    obtain ⟨t', hsome, hy, hmo, hd, hh, hmi, hs, hu⟩ :=
      from_slice_clamped_valid
        (Time.year ⟨mask_u64 (t.packed / 16 * 16)⟩ % (2036 - 1970) + 1970)
        (Time.month ⟨mask_u64 (t.packed / 16 * 16)⟩)
        (Time.day ⟨mask_u64 (t.packed / 16 * 16)⟩)
        (Time.hour ⟨mask_u64 (t.packed / 16 * 16)⟩)
        (Time.minute ⟨mask_u64 (t.packed / 16 * 16)⟩)
        (Time.second ⟨mask_u64 (t.packed / 16 * 16)⟩)
        (Time.micro ⟨mask_u64 (t.packed / 16 * 16)⟩)
        TimeType.tTimestamp t.fsp hfsp
        (by
          have : Time.year ⟨mask_u64 (t.packed / 16 * 16)⟩ % (2036 - 1970) < 66 :=
            Nat.mod_lt _ (by norm_num)
          omega)
    have hmask : mask_time t = some t' := by
      simp only [mask_time, htt]
      exact hsome
    refine ⟨t', hmask, ?_, ?_, ?_, ?_, ?_, ?_, ?_, ?_, ?_⟩
    · simp only [workload_sim_mask, hmask, Option.getD_some]
    · omega
    · rw [hd, hy, hmo]
      have := last_day_of_month_bounds
        (Time.year ⟨mask_u64 (t.packed / 16 * 16)⟩ % (2036 - 1970) + 1970)
        (Time.month ⟨mask_u64 (t.packed / 16 * 16)⟩ % 12 + 1)
      have hdd : Time.day ⟨mask_u64 (t.packed / 16 * 16)⟩ %
          last_day_of_month
            (Time.year ⟨mask_u64 (t.packed / 16 * 16)⟩ % (2036 - 1970) + 1970)
            (Time.month ⟨mask_u64 (t.packed / 16 * 16)⟩ % 12 + 1) <
          last_day_of_month
            (Time.year ⟨mask_u64 (t.packed / 16 * 16)⟩ % (2036 - 1970) + 1970)
            (Time.month ⟨mask_u64 (t.packed / 16 * 16)⟩ % 12 + 1) :=
        Nat.mod_lt _ (by omega)
      omega
    · have : Time.hour ⟨mask_u64 (t.packed / 16 * 16)⟩ % 24 < 24 :=
        Nat.mod_lt _ (by norm_num)
      omega
    · have : Time.minute ⟨mask_u64 (t.packed / 16 * 16)⟩ % 60 < 60 :=
        Nat.mod_lt _ (by norm_num)
      omega
    · have : Time.second ⟨mask_u64 (t.packed / 16 * 16)⟩ % 60 < 60 :=
        Nat.mod_lt _ (by norm_num)
      omega
    · have : Time.micro ⟨mask_u64 (t.packed / 16 * 16)⟩ % 1000000 < 1000000 :=
        Nat.mod_lt _ (by norm_num)
      omega
    · intro _
      have : Time.year ⟨mask_u64 (t.packed / 16 * 16)⟩ % (2036 - 1970) < 66 :=
        Nat.mod_lt _ (by norm_num)
      omega
    · intro hts
      exact absurd rfl hts

/-! ## Theorems: error fallback in masking (claim C10) -/

/-- Claim C10: for float, duration, time, and decimal datums, when the
underlying mask computation fails, `workload_sim_mask` returns the datum
unchanged, and `mask_hr_datum` likewise returns the human-readable datum
unchanged (for the constructible datums whose rendered form parses
back). -/
theorem mask_error_fallback (du : Duration) (t : Time) (de : Decimal) (f : Nat) :
    (mask_duration du = none → workload_sim_mask (Datum.dur du) = Datum.dur du) ∧
    (mask_time t = none → workload_sim_mask (Datum.time t) = Datum.time t) ∧
    (mask_decimal de = none → workload_sim_mask (Datum.dec de) = Datum.dec de) ∧
    (mask_f64 f = none → workload_sim_mask (Datum.f64 f) = Datum.f64 f) ∧
    (du.WellFormed → mask_duration du = none →
      mask_hr_datum (HrDatum.dur (HrDuration.ofDuration du)) =
        some (HrDatum.dur (HrDuration.ofDuration du))) ∧
    (mask_time t = none →
      mask_hr_datum (HrDatum.time (HrTime.ofTime t)) =
        some (HrDatum.time (HrTime.ofTime t))) ∧
    (de.WellFormed → mask_decimal de = none →
      mask_hr_datum (HrDatum.dec (HrDecimal.ofDecimal de)) =
        some (HrDatum.dec (HrDecimal.ofDecimal de))) ∧
    (mask_f64 f = none → mask_hr_datum (HrDatum.f64 f) = some (HrDatum.f64 f)) := by
  refine ⟨?_, ?_, ?_, ?_, ?_, ?_, ?_, ?_⟩
  · intro h
    simp [workload_sim_mask, h]
  · intro h
    simp [workload_sim_mask, h]
  · intro h
    simp [workload_sim_mask, h]
  · intro h
    simp [workload_sim_mask, h]
  · intro hwf h
    simp only [mask_hr_datum, HrDuration.to_duration, HrDuration.ofDuration]
    rw [duration_parse_toDisplay du hwf]
    simp [h, HrDuration.ofDuration]
  · intro h
    simp only [mask_hr_datum, HrTime.to_time, HrTime.ofTime]
    rw [h]
    rfl
  · intro hwf h
    obtain ⟨ne, m, fr, p⟩ := de
    have hparse := decimal_parse_toDisplay ⟨ne, m, fr, p⟩ hwf
    simp only [mask_hr_datum, HrDecimal.ofDecimal, HrDecimal.to_decimal]
    rw [hparse]
    have hmask2 :
        mask_decimal ⟨ne, m, fr, some (p.getD (numDigits (m / 10 ^ fr) + fr))⟩ = none := h
    simp [hmask2, HrDecimal.ofDecimal, Decimal.set_preferred_prec, Decimal.toDisplay,
      Decimal.preferred_prec_and_frac, Decimal.naturalPrec, Decimal.intPart]
  · intro h
    simp [mask_hr_datum, h]

/-- Witness for C10: a duration with an invalid stored `fsp` makes the
inner mask fail, and the datum passes through unchanged. -/
theorem mask_error_fallback_witness :
    workload_sim_mask (Datum.dur ⟨0, 9⟩) = Datum.dur ⟨0, 9⟩ :=
  (mask_error_fallback ⟨0, 9⟩ ⟨0⟩ ⟨false, 0, 0, none⟩ 0).1 rfl

/-! ## Theorems: byte-level codecs -/

theorem length_beBytes (w n : Nat) : (beBytes w n).length = w := by
  induction w generalizing n with
  | zero => rfl
  | succ w ih => simp [beBytes, ih]

theorem fromBe_beBytes (w n : Nat) (h : n < 256 ^ w) :
    fromBeBytes (beBytes w n) = n := by
  induction w generalizing n with
  | zero =>
    simp only [beBytes, fromBeBytes]
    simp at h
    omega
  | succ w ih =>
    have hpos : 0 < (256 : Nat) ^ w := by positivity
    have hmod : n % 256 ^ w < 256 ^ w := Nat.mod_lt _ hpos
    simp only [beBytes, fromBeBytes, length_beBytes, ih _ hmod]
    have hdiv : n / 256 ^ w < 256 := by
      apply Nat.div_lt_of_lt_mul
      calc n < 256 ^ (w + 1) := h
        _ = 256 ^ w * 256 := by ring
    rw [Nat.mod_eq_of_lt hdiv, Nat.mul_comm]
    · have h2 := Nat.div_add_mod n (256 ^ w)
      omega

theorem length_encodeI64Cmp (x : Int) : (encodeI64Cmp x).length = 8 :=
  length_beBytes 8 _

theorem decodeI64Cmp_encode (x : Int) (hlo : -(2 ^ 63) ≤ x) (hhi : x < 2 ^ 63) :
    decodeI64Cmp (encodeI64Cmp x) = x := by
  unfold decodeI64Cmp encodeI64Cmp
  rw [fromBe_beBytes]
  · omega
  · have h2 : (256 : Nat) ^ 8 = 18446744073709551616 := by norm_num
    omega

theorem length_encodeU64Desc (ts : Nat) : (encodeU64Desc ts).length = 8 :=
  length_beBytes 8 _

theorem decodeU64Desc_encode (ts : Nat) (h : ts < 2 ^ 64) :
    decodeU64Desc (encodeU64Desc ts) = ts := by
  unfold decodeU64Desc encodeU64Desc
  rw [fromBe_beBytes]
  · omega
  · have h2 : (256 : Nat) ^ 8 = 18446744073709551616 := by norm_num
    omega

theorem decodeBytesCmpF_encode_small (b s : List Nat) (df : Nat)
    (h8 : b.length < 8) (hdf : 1 ≤ df) :
    decodeBytesCmpF df ((b ++ List.replicate (8 - b.length) 0 ++ [247 + b.length]) ++ s) =
      some (b, s) := by
  obtain ⟨df2, rfl⟩ : ∃ d, df = d + 1 := ⟨df - 1, by omega⟩
  have hpre : (b ++ List.replicate (8 - b.length) 0).length = 8 := by
    simp
    omega
  have e_def : (b ++ List.replicate (8 - b.length) 0 ++ [247 + b.length]) ++ s =
      (b ++ List.replicate (8 - b.length) 0) ++ ((247 + b.length) :: s) := by
    simp
  rw [e_def]
  show (if _ then _ else _) = _
  rw [if_neg (by simp [hpre]; omega)]
  have htake : ((b ++ List.replicate (8 - b.length) 0) ++ ((247 + b.length) :: s)).take 8 =
      b ++ List.replicate (8 - b.length) 0 := List.take_left' hpre
  have hdrop : ((b ++ List.replicate (8 - b.length) 0) ++ ((247 + b.length) :: s)).drop 8 =
      (247 + b.length) :: s := List.drop_left' hpre
  have hdrop9 : ((b ++ List.replicate (8 - b.length) 0) ++ ((247 + b.length) :: s)).drop 9 =
      s := by
    rw [show 9 = 8 + 1 by rfl, ← List.drop_drop, hdrop]
    rfl
  rw [htake, hdrop, hdrop9]
  simp only [List.headD_cons]
  rw [if_neg (by omega), if_pos (by omega)]
  have hm : 247 + b.length - 247 = b.length := by omega
  rw [hm, if_pos (List.drop_left' rfl)]
  rw [List.take_left' rfl]

theorem encodeBytesCmpF_fuel_irrel (f1 : Nat) : ∀ (f2 : Nat) (b : List Nat),
    b.length ≤ f1 → b.length ≤ f2 → encodeBytesCmpF f1 b = encodeBytesCmpF f2 b := by
  induction f1 with
  | zero =>
    intro f2 b h1 h2
    have hb : b = [] := List.eq_nil_of_length_eq_zero (by omega)
    subst hb
    cases f2 <;> rfl
  | succ f1 ih =>
    intro f2 b h1 h2
    by_cases h8 : b.length < 8
    · cases f2 with
      | zero =>
        have hb : b = [] := List.eq_nil_of_length_eq_zero (by omega)
        subst hb
        rfl
      | succ f2 =>
        show (if _ then _ else _) = (if _ then _ else _)
        rw [if_pos h8, if_pos h8]
    · have hf2 : ∃ g2, f2 = g2 + 1 := ⟨f2 - 1, by omega⟩
      obtain ⟨g2, rfl⟩ := hf2
      show (if _ then _ else _) = (if _ then _ else _)
      rw [if_neg h8, if_neg h8]
      have := ih g2 (b.drop 8) (by simp; omega) (by simp; omega)
      rw [this]

theorem decodeBytesCmpF_encodeF (n : Nat) : ∀ (b s : List Nat) (ef df : Nat),
    b.length ≤ n → b.length ≤ ef → b.length / 8 + 1 ≤ df →
    decodeBytesCmpF df (encodeBytesCmpF ef b ++ s) = some (b, s) := by
  induction n with
  | zero =>
    intro b s ef df hn hef hdf
    have hb : b = [] := List.eq_nil_of_length_eq_zero (by omega)
    subst hb
    have henc : encodeBytesCmpF ef [] =
        ([] : List Nat) ++ List.replicate (8 - ([] : List Nat).length) 0 ++
          [247 + ([] : List Nat).length] := by
      cases ef <;> rfl
    rw [henc]
    exact decodeBytesCmpF_encode_small [] s df (by simp) (by omega)
  | succ n ih =>
    intro b s ef df hn hef hdf
    by_cases h8 : b.length < 8
    · have henc : encodeBytesCmpF ef b =
          b ++ List.replicate (8 - b.length) 0 ++ [247 + b.length] := by
        cases ef with
        | zero => rfl
        | succ ef =>
          show (if _ then _ else _) = _
          rw [if_pos h8]
      rw [henc]
      exact decodeBytesCmpF_encode_small b s df h8 (by omega)
    · obtain ⟨ef2, rfl⟩ : ∃ e2, ef = e2 + 1 := ⟨ef - 1, by omega⟩
      obtain ⟨df2, rfl⟩ : ∃ d2, df = d2 + 1 := ⟨df - 1, by omega⟩
      have henc : encodeBytesCmpF (ef2 + 1) b =
          b.take 8 ++ 255 :: encodeBytesCmpF ef2 (b.drop 8) := by
        show (if _ then _ else _) = _
        rw [if_neg h8]
      rw [henc]
      have htl : (b.take 8).length = 8 := by simp; omega
      have hpre : (b.take 8 ++ [255]).length = 9 := by simp [htl]
      have e_def : (b.take 8 ++ 255 :: encodeBytesCmpF ef2 (b.drop 8)) ++ s =
          (b.take 8 ++ [255]) ++ (encodeBytesCmpF ef2 (b.drop 8) ++ s) := by
        simp
      rw [e_def]
      show (if _ then _ else _) = _
      rw [if_neg (by simp [hpre]; omega)]
      have hassoc : (b.take 8 ++ [255]) ++ (encodeBytesCmpF ef2 (b.drop 8) ++ s) =
          b.take 8 ++ ([255] ++ (encodeBytesCmpF ef2 (b.drop 8) ++ s)) := by simp
      have htake : ((b.take 8 ++ [255]) ++ (encodeBytesCmpF ef2 (b.drop 8) ++ s)).take 8 =
          b.take 8 := by
        rw [hassoc, List.take_left' htl]
      have hdrop : ((b.take 8 ++ [255]) ++ (encodeBytesCmpF ef2 (b.drop 8) ++ s)).drop 8 =
          [255] ++ (encodeBytesCmpF ef2 (b.drop 8) ++ s) := by
        rw [hassoc, List.drop_left' htl]
      have hdrop9 : ((b.take 8 ++ [255]) ++ (encodeBytesCmpF ef2 (b.drop 8) ++ s)).drop 9 =
          encodeBytesCmpF ef2 (b.drop 8) ++ s := List.drop_left' hpre
      rw [htake, hdrop, hdrop9]
      simp only [List.headD_cons, List.singleton_append]
      rw [if_pos trivial]
      have hih : decodeBytesCmpF df2 (encodeBytesCmpF ef2 (b.drop 8) ++ s) =
          some (b.drop 8, s) := by
        apply ih
        · simp
          omega
        · simp
          omega
        · simp
          omega
      rw [hih]
      simp [List.take_append_drop]

theorem length_encodeBytesCmpF_ge (n : Nat) : ∀ (b : List Nat) (ef : Nat),
    b.length ≤ n → b.length / 8 + 1 ≤ (encodeBytesCmpF ef b).length := by
  induction n with
  | zero =>
    intro b ef hn
    have hb : b = [] := List.eq_nil_of_length_eq_zero (by omega)
    subst hb
    cases ef <;> simp [encodeBytesCmpF]
  | succ n ih =>
    intro b ef hn
    by_cases h8 : b.length < 8
    · cases ef with
      | zero => simp [encodeBytesCmpF]; omega
      | succ ef =>
        simp only [encodeBytesCmpF]
        rw [if_pos h8]
        simp
        omega
    · cases ef with
      | zero => simp [encodeBytesCmpF]; omega
      | succ ef =>
        simp only [encodeBytesCmpF]
        rw [if_neg h8]
        have := ih (b.drop 8) ef (by simp; omega)
        simp only [List.length_append, List.length_cons, List.length_take,
          List.length_drop] at *
        omega

theorem decodeBytesCmp_encode (b s : List Nat) :
    decodeBytesCmp (encodeBytesCmp b ++ s) = some (b, s) := by
  unfold decodeBytesCmp encodeBytesCmp
  apply decodeBytesCmpF_encodeF b.length b s b.length _ le_rfl le_rfl
  have h1 := length_encodeBytesCmpF_ge b.length b b.length le_rfl
  simp only [List.length_append]
  omega

theorem nine_le_length_encodeBytesCmp (b : List Nat) : 9 ≤ (encodeBytesCmp b).length := by
  unfold encodeBytesCmp
  have h1 := length_encodeBytesCmpF_ge b.length b b.length le_rfl
  by_cases h8 : b.length < 8
  · cases hb : b.length with
    | zero =>
      have : b = [] := List.eq_nil_of_length_eq_zero hb
      subst this
      simp [encodeBytesCmpF]
    | succ k =>
      simp only [encodeBytesCmpF]
      rw [if_pos (by omega)]
      simp
      omega
  · obtain ⟨m, hm⟩ : ∃ m, b.length = m + 1 := ⟨b.length - 1, by omega⟩
    rw [hm]
    simp only [encodeBytesCmpF]
    rw [if_neg (by omega)]
    simp
    omega

theorem take8_append (x s : List Nat) (h : x.length = 8) :
    take8 (x ++ s) = some (x, s) := by
  unfold take8
  rw [if_neg (by simp [h]), List.take_left' h, List.drop_left' h]

/-! ## Theorems: datum key codec round trip -/

theorem read_datum_encode_key (d : Datum) (e s : List Nat) (hok : KeyDatumOk d)
    (he : encode_key_datum d = some e) : read_datum (e ++ s) = some (d, s) := by
  cases d with
  | i64 v =>
    obtain ⟨hlo, hhi⟩ : -(2 ^ 63) ≤ v ∧ v < 2 ^ 63 := hok
    simp only [encode_key_datum, Option.some.injEq] at he
    subst he
    simp only [read_datum, List.cons_append]
    norm_num
    rw [take8_append _ _ (length_encodeI64Cmp v)]
    simp [decodeI64Cmp_encode v hlo hhi]
  | u64 v =>
    have hv : v < 2 ^ 64 := hok
    simp only [encode_key_datum, Option.some.injEq] at he
    subst he
    simp only [read_datum, List.cons_append]
    norm_num
    rw [take8_append _ _ (length_beBytes 8 v)]
    refine ⟨beBytes 8 v, rfl, ?_⟩
    have h2 : (256 : Nat) ^ 8 = 18446744073709551616 := by norm_num
    exact fromBe_beBytes 8 v (by omega)
  | bytes b =>
    simp only [encode_key_datum, Option.some.injEq] at he
    subst he
    simp only [read_datum, List.cons_append]
    norm_num
    rw [decodeBytesCmp_encode]
  | null => exact absurd hok (by simp [KeyDatumOk])
  | f64 v => exact absurd hok (by simp [KeyDatumOk])
  | dur x => exact absurd hok (by simp [KeyDatumOk])
  | dec x => exact absurd hok (by simp [KeyDatumOk])
  | time x => exact absurd hok (by simp [KeyDatumOk])
  | json x => exact absurd hok (by simp [KeyDatumOk])
  | enum x => exact absurd hok (by simp [KeyDatumOk])
  | set x => exact absurd hok (by simp [KeyDatumOk])
  | min => exact absurd hok (by simp [KeyDatumOk])
  | max => exact absurd hok (by simp [KeyDatumOk])

theorem encode_key_datum_ne_nil (d : Datum) (e : List Nat)
    (he : encode_key_datum d = some e) : e ≠ [] := by
  cases d <;> simp only [encode_key_datum, Option.some.injEq, reduceCtorEq] at he <;>
    subst he <;> simp

theorem encode_key_datums_length (ds : List Datum) (enc : List Nat)
    (h : encode_key_datums ds = some enc) : ds.length ≤ enc.length := by
  induction ds generalizing enc with
  | nil =>
    simp only [encode_key_datums, Option.some.injEq] at h
    subst h
    simp
  | cons d ds ih =>
    simp only [encode_key_datums, Option.bind_eq_some] at h
    obtain ⟨e1, he1, hmap⟩ := h
    obtain ⟨e2, he2, rfl⟩ := Option.map_eq_some'.mp hmap
    have h1 := encode_key_datum_ne_nil d e1 he1
    have h2 := ih e2 he2
    have h3 : 1 ≤ e1.length := by
      cases e1
      · exact absurd rfl h1
      · simp
    simp only [List.length_append, List.length_cons]
    omega

theorem datum_decode_fuel_encode (ds : List Datum) (enc : List Nat)
    (h : encode_key_datums ds = some enc) (hok : ∀ d ∈ ds, KeyDatumOk d) :
    ∀ fuel, ds.length ≤ fuel → datum_decode_fuel fuel enc = some ds := by
  induction ds generalizing enc with
  | nil =>
    intro fuel _
    simp only [encode_key_datums, Option.some.injEq] at h
    subst h
    cases fuel <;> rfl
  | cons d ds ih =>
    intro fuel hf
    simp only [encode_key_datums, Option.bind_eq_some] at h
    obtain ⟨e1, he1, hmap⟩ := h
    obtain ⟨e2, he2, rfl⟩ := Option.map_eq_some'.mp hmap
    obtain ⟨f', rfl⟩ : ∃ f', fuel = f' + 1 := ⟨fuel - 1, by simp at hf; omega⟩
    have hne : e1 ++ e2 ≠ [] := by
      have := encode_key_datum_ne_nil d e1 he1
      cases e1
      · exact absurd rfl this
      · simp
    obtain ⟨a, rest, hcons⟩ : ∃ a rest, e1 ++ e2 = a :: rest := by
      cases hc : e1 ++ e2 with
      | nil => exact absurd hc hne
      | cons a r => exact ⟨a, r, rfl⟩
    rw [hcons]
    show (read_datum (a :: rest)).bind
      (fun p => (datum_decode_fuel f' p.2).map (p.1 :: ·)) = some (d :: ds)
    rw [← hcons, read_datum_encode_key d e1 e2 (hok d (by simp)) he1]
    simp only [Option.some_bind]
    rw [ih e2 he2 (fun x hx => hok x (by simp [hx])) f' (by simp at hf; omega)]
    rfl

theorem datum_decode_encode (ds : List Datum) (enc : List Nat)
    (h : encode_key_datums ds = some enc) (hok : ∀ d ∈ ds, KeyDatumOk d) :
    datum_decode enc = some ds :=
  datum_decode_fuel_encode ds enc h hok enc.length (encode_key_datums_length ds enc h)

/-! ## Theorems: row-key round trip (claims C2, C5) -/

theorem drop_one_cons {x : Nat} {A : List Nat} : (x :: A).drop 1 = A := rfl

theorem drop_nine_cons_append {x : Nat} {A B : List Nat} (hA : A.length = 8) :
    ((x :: A) ++ B).drop 9 = B := by
  simp only [List.cons_append]
  rw [show (9 : Nat) = 1 + 8 from rfl, ← List.drop_drop, drop_one_cons,
    List.drop_left' hA]

theorem drop_eleven_cons_append {x : Nat} {A B C : List Nat}
    (hA : A.length = 8) (hB : B.length = 2) :
    ((x :: A) ++ B ++ C).drop 11 = C := by
  rw [show (11 : Nat) = 9 + 2 from rfl, ← List.drop_drop]
  have h9 : ((x :: A) ++ B ++ C).drop 9 = B ++ C := by
    rw [List.append_assoc]
    exact drop_nine_cons_append hA
  rw [h9, List.drop_left' hB]

theorem decode_key_encoded (raw : List Nat) (ts0 : Nat) (hts : ts0 < 2 ^ 64) :
    decode_key (122 :: encodeBytesCmp raw ++ encodeU64Desc ts0) = some (raw, some ts0) := by
  have hsplit : split_on_ts_for (encodeBytesCmp raw ++ encodeU64Desc ts0) =
      some (encodeBytesCmp raw, ts0) := by
    unfold split_on_ts_for
    have hlen : (encodeBytesCmp raw ++ encodeU64Desc ts0).length =
        (encodeBytesCmp raw).length + 8 := by simp [length_encodeU64Desc]
    rw [if_neg (by omega)]
    have htk : (encodeBytesCmp raw ++ encodeU64Desc ts0).length - 8 =
        (encodeBytesCmp raw).length := by omega
    rw [htk, List.take_left, List.drop_left, decodeU64Desc_encode ts0 hts]
  have hraw : key_into_raw (encodeBytesCmp raw) = some raw := by
    unfold key_into_raw
    rw [show encodeBytesCmp raw = encodeBytesCmp raw ++ [] by simp, decodeBytesCmp_encode]
  have hd1 : (122 :: encodeBytesCmp raw ++ encodeU64Desc ts0).drop 1 =
      encodeBytesCmp raw ++ encodeU64Desc ts0 := by
    simp only [List.cons_append]
    rfl
  unfold decode_key
  rw [hd1]
  simp only [hsplit, hraw, Option.map_some']

theorem decode_table_id_rowkey (tid : Int) (tail : List Nat)
    (htlo : -(2 ^ 63) ≤ tid) (hthi : tid < 2 ^ 63) :
    decode_table_id (116 :: encodeI64Cmp tid ++ [95, 114] ++ tail) = some tid := by
  unfold decode_table_id
  rw [if_pos ⟨rfl, by
    simp only [List.cons_append, List.length_cons, List.length_append,
      length_encodeI64Cmp]
    omega⟩]
  have hd1 : (116 :: encodeI64Cmp tid ++ [95, 114] ++ tail).drop 1 =
      encodeI64Cmp tid ++ ([95, 114] ++ tail) := by
    simp only [List.cons_append, List.append_assoc]
    rfl
  rw [hd1, List.take_left' (length_encodeI64Cmp tid), decodeI64Cmp_encode tid htlo hthi]

theorem decode_int_handle_rowkey (tid h : Int)
    (hhlo : -(2 ^ 63) ≤ h) (hhhi : h < 2 ^ 63) :
    decode_int_handle (encode_row_key tid h) = some h := by
  unfold decode_int_handle encode_row_key
  have hd9 : (116 :: encodeI64Cmp tid ++ [95, 114] ++ encodeI64Cmp h).drop 9 =
      [95, 114] ++ encodeI64Cmp h := by
    rw [List.append_assoc]
    exact drop_nine_cons_append (length_encodeI64Cmp tid)
  have hd11 : (116 :: encodeI64Cmp tid ++ [95, 114] ++ encodeI64Cmp h).drop 11 =
      encodeI64Cmp h :=
    drop_eleven_cons_append (length_encodeI64Cmp tid) rfl
  rw [if_pos ⟨rfl, by rw [hd9]; rfl, by
    simp only [List.cons_append, List.length_cons, List.length_append,
      length_encodeI64Cmp]
    omega⟩]
  rw [hd11, List.take_of_length_le (by simp [length_encodeI64Cmp]),
    decodeI64Cmp_encode h hhlo hhhi]

theorem decode_common_handle_rowkey (tid : Int) (hbytes : List Nat) :
    decode_common_handle (encode_row_key_with_common_handle tid hbytes) = some hbytes := by
  unfold decode_common_handle encode_row_key_with_common_handle
  have hd9 : (116 :: encodeI64Cmp tid ++ [95, 114] ++ hbytes).drop 9 =
      [95, 114] ++ hbytes := by
    rw [List.append_assoc]
    exact drop_nine_cons_append (length_encodeI64Cmp tid)
  have hd11 : (116 :: encodeI64Cmp tid ++ [95, 114] ++ hbytes).drop 11 = hbytes :=
    drop_eleven_cons_append (length_encodeI64Cmp tid) rfl
  rw [if_pos ⟨rfl, by rw [hd9]; rfl, by
    simp only [List.cons_append, List.length_cons, List.length_append,
      length_encodeI64Cmp]
    omega⟩]
  rw [hd11]

theorem length_encode_row_key (tid h : Int) : (encode_row_key tid h).length = 19 := by
  simp [encode_row_key, length_encodeI64Cmp]

theorem encode_key_datum_length_ge (d : Datum) (e : List Nat) (hok : KeyDatumOk d)
    (he : encode_key_datum d = some e) : 9 ≤ e.length := by
  cases d with
  | i64 v =>
    simp only [encode_key_datum, Option.some.injEq] at he
    subst he
    simp [length_encodeI64Cmp]
  | u64 v =>
    simp only [encode_key_datum, Option.some.injEq] at he
    subst he
    simp [length_beBytes]
  | bytes b =>
    simp only [encode_key_datum, Option.some.injEq] at he
    subst he
    have h9 : 9 ≤ (encodeBytesCmp b).length := nine_le_length_encodeBytesCmp b
    simp
    omega
  | null => exact absurd hok (by simp [KeyDatumOk])
  | f64 v => exact absurd hok (by simp [KeyDatumOk])
  | dur x => exact absurd hok (by simp [KeyDatumOk])
  | dec x => exact absurd hok (by simp [KeyDatumOk])
  | time x => exact absurd hok (by simp [KeyDatumOk])
  | json x => exact absurd hok (by simp [KeyDatumOk])
  | enum x => exact absurd hok (by simp [KeyDatumOk])
  | set x => exact absurd hok (by simp [KeyDatumOk])
  | min => exact absurd hok (by simp [KeyDatumOk])
  | max => exact absurd hok (by simp [KeyDatumOk])

theorem encode_key_datums_length_ne_8 (ds : List Datum) (enc : List Nat)
    (h : encode_key_datums ds = some enc) (hok : ∀ d ∈ ds, KeyDatumOk d) :
    enc.length ≠ 8 := by
  cases ds with
  | nil =>
    simp only [encode_key_datums, Option.some.injEq] at h
    subst h
    simp
  | cons d ds =>
    simp only [encode_key_datums, Option.bind_eq_some] at h
    obtain ⟨e1, he1, hmap⟩ := h
    obtain ⟨e2, he2, rfl⟩ := Option.map_eq_some'.mp hmap
    have h9 := encode_key_datum_length_ge d e1 (hok d (by simp)) he1
    by_cases hnil : ds = []
    · subst hnil
      simp only [encode_key_datums, Option.some.injEq] at he2
      subst he2
      simp
      omega
    · obtain ⟨d2, ds2, rfl⟩ : ∃ d2 ds2, ds = d2 :: ds2 := by
        cases ds with
        | nil => exact absurd rfl hnil
        | cons d2 ds2 => exact ⟨d2, ds2, rfl⟩
      simp only [encode_key_datums, Option.bind_eq_some] at he2
      obtain ⟨e3, he3, hmap2⟩ := he2
      obtain ⟨e4, he4, rfl⟩ := Option.map_eq_some'.mp hmap2
      have h9b := encode_key_datum_length_ge d2 e3 (hok d2 (by simp)) he3
      simp
      omega

theorem mapM_intoDatum_ofDatum (ds : List Datum) (hok : ∀ d ∈ ds, KeyDatumOk d) :
    (ds.map HrDatum.ofDatum).mapM HrDatum.intoDatum = some ds := by
  induction ds with
  | nil => rfl
  | cons d ds ih =>
    have hinto : HrDatum.intoDatum (HrDatum.ofDatum d) = some d := by
      cases d with
      | i64 v => rfl
      | u64 v => rfl
      | bytes b =>
        simp only [HrDatum.ofDatum, HrDatum.intoDatum, hrbytes_roundtrip]
      | null => exact absurd (hok Datum.null (by simp)) (by simp [KeyDatumOk])
      | f64 v => exact absurd (hok (Datum.f64 v) (by simp)) (by simp [KeyDatumOk])
      | dur x => exact absurd (hok (Datum.dur x) (by simp)) (by simp [KeyDatumOk])
      | dec x => exact absurd (hok (Datum.dec x) (by simp)) (by simp [KeyDatumOk])
      | time x => exact absurd (hok (Datum.time x) (by simp)) (by simp [KeyDatumOk])
      | json x => exact absurd (hok (Datum.json x) (by simp)) (by simp [KeyDatumOk])
      | enum x => exact absurd (hok (Datum.enum x) (by simp)) (by simp [KeyDatumOk])
      | set x => exact absurd (hok (Datum.set x) (by simp)) (by simp [KeyDatumOk])
      | min => exact absurd (hok Datum.min (by simp)) (by simp [KeyDatumOk])
      | max => exact absurd (hok Datum.max (by simp)) (by simp [KeyDatumOk])
    simp only [List.map_cons, List.mapM_cons, hinto,
      ih (fun x hx => hok x (by simp [hx]))]
    rfl

theorem encode_key_datums_exists (ds : List Datum) (hok : ∀ d ∈ ds, KeyDatumOk d) :
    ∃ enc, encode_key_datums ds = some enc := by
  induction ds with
  | nil => exact ⟨[], rfl⟩
  | cons d ds ih =>
    obtain ⟨e1, he1⟩ : ∃ e1, encode_key_datum d = some e1 := by
      have hdok : KeyDatumOk d := hok d (by simp)
      cases d with
      | i64 v => exact ⟨_, rfl⟩
      | u64 v => exact ⟨_, rfl⟩
      | bytes b => exact ⟨_, rfl⟩
      | null => exact absurd hdok (by simp [KeyDatumOk])
      | f64 v => exact absurd hdok (by simp [KeyDatumOk])
      | dur y => exact absurd hdok (by simp [KeyDatumOk])
      | dec y => exact absurd hdok (by simp [KeyDatumOk])
      | time y => exact absurd hdok (by simp [KeyDatumOk])
      | json y => exact absurd hdok (by simp [KeyDatumOk])
      | enum y => exact absurd hdok (by simp [KeyDatumOk])
      | set y => exact absurd hdok (by simp [KeyDatumOk])
      | min => exact absurd hdok (by simp [KeyDatumOk])
      | max => exact absurd hdok (by simp [KeyDatumOk])
    obtain ⟨e2, he2⟩ := ih (fun z hz => hok z (by simp [hz]))
    exact ⟨e1 ++ e2, by simp [encode_key_datums, he1, he2]⟩

theorem hr_key_structured_roundtrip (x : HrDataKey) (hok : HrKeyOk x) (ts0 : Nat)
    (hts : x.ts = some ts0) :
    ∃ k, HrDataKey.into_encoded x = some k ∧ HrDataKey.from_encoded k = some x := by
  obtain ⟨tid, ts, handle⟩ := x
  obtain ⟨htlo, hthi, htsr, hh⟩ := hok
  simp only at hts htlo hthi htsr hh
  subst hts
  have hts0 : ts0 < 2 ^ 64 := htsr ts0 rfl
  cases handle with
  | int h =>
    obtain ⟨hhlo, hhhi⟩ := hh
    refine ⟨122 :: encodeBytesCmp (encode_row_key tid h) ++ encodeU64Desc ts0, rfl, ?_⟩
    unfold HrDataKey.from_encoded
    rw [decode_key_encoded (encode_row_key tid h) ts0 hts0]
    simp only [Option.some_bind]
    rw [show decode_table_id (encode_row_key tid h) = some tid from
      decode_table_id_rowkey tid _ htlo hthi]
    simp only [Option.some_bind]
    rw [if_pos (by rw [length_encode_row_key]; rfl)]
    rw [decode_int_handle_rowkey tid h hhlo hhhi]
    rfl
  | common hds =>
    obtain ⟨ds, rfl, hdsok⟩ := hh
    have hinto := mapM_intoDatum_ofDatum ds hdsok
    obtain ⟨enc, henc⟩ := encode_key_datums_exists ds hdsok
    refine ⟨122 :: encodeBytesCmp (encode_row_key_with_common_handle tid enc) ++
      encodeU64Desc ts0, ?_, ?_⟩
    · unfold HrDataKey.into_encoded
      simp only [hinto, henc, Option.some_bind, Option.map_some']
      rfl
    · unfold HrDataKey.from_encoded
      rw [decode_key_encoded (encode_row_key_with_common_handle tid enc) ts0 hts0]
      simp only [Option.some_bind]
      rw [show decode_table_id (encode_row_key_with_common_handle tid enc) = some tid
        from decode_table_id_rowkey tid _ htlo hthi]
      simp only [Option.some_bind]
      have hlen : (encode_row_key_with_common_handle tid enc).length = 11 + enc.length := by
        simp only [encode_row_key_with_common_handle, List.cons_append,
          List.length_cons, List.length_append, List.length_nil, length_encodeI64Cmp]
        omega
      have hne : ¬ (encode_row_key_with_common_handle tid enc).length = PREFIX_LEN + 8 := by
        rw [hlen]
        have := encode_key_datums_length_ne_8 ds enc henc hdsok
        unfold PREFIX_LEN
        omega
      rw [if_neg hne, decode_common_handle_rowkey tid enc]
      simp only [Option.some_bind]
      unfold HrHandle.from_encoded_common_handle
      rw [datum_decode_encode ds enc henc hdsok]
      rfl

/-- Claim C2 (amended): for every well-formed encoded row key that carries
a trailing MVCC timestamp — whether its handle is an integer handle or a
common handle — `from_encoded` succeeds and `into_encoded` returns exactly
the original byte sequence.  (Without a trailing timestamp the round trip
fails; see the counterexample.) -/
theorem hr_key_roundtrip (k : List Nat)
    (h : ∃ x ts0, HrKeyOk x ∧ x.ts = some ts0 ∧ HrDataKey.into_encoded x = some k) :
    ∃ hr, HrDataKey.from_encoded k = some hr ∧ HrDataKey.into_encoded hr = some k := by
  obtain ⟨x, ts0, hok, hts, henc⟩ := h
  obtain ⟨k2, henc2, hdec⟩ := hr_key_structured_roundtrip x hok ts0 hts
  rw [henc] at henc2
  cases henc2
  exact ⟨x, hdec, henc⟩

/-- Witness for C2 at a concrete int-handle key with timestamp. -/
theorem hr_key_roundtrip_witness :
    ∃ hr, HrDataKey.from_encoded
        (122 :: encodeBytesCmp (encode_row_key 5 9) ++ encodeU64Desc 7) = some hr ∧
      HrDataKey.into_encoded hr =
        some (122 :: encodeBytesCmp (encode_row_key 5 9) ++ encodeU64Desc 7) :=
  hr_key_roundtrip _
    ⟨⟨5, some 7, HrHandle.int 9⟩, 7,
      ⟨by norm_num, by norm_num, fun ts h => by cases h; norm_num, by norm_num⟩,
      rfl, rfl⟩

/-- Counterexample for C2 as stated: a well-formed encoded row key without
an appended timestamp (the encoder's own output for `ts = None`) fails to
decode — `from_encoded` unconditionally splits the last 8 bytes off as a
timestamp, leaving an undecodable remainder — so the round trip does not
hold "with and without an appended timestamp". -/
theorem hr_key_c2_counterexample :
    HrDataKey.into_encoded ⟨0, none, HrHandle.int 0⟩ =
      some (122 :: encodeBytesCmp (encode_row_key 0 0)) ∧
    HrDataKey.from_encoded (122 :: encodeBytesCmp (encode_row_key 0 0)) = none :=
  ⟨rfl, rfl⟩

/-- Claim C5: when decoding succeeds, the handle is decoded as an integer
handle exactly when the raw key length is the fixed prefix length plus 8;
every other length decodes as a common handle (a datum list). -/
theorem from_encoded_handle_dispatch (k raw : List Nat) (ts : Option Nat)
    (hr : HrDataKey) (hdk : decode_key k = some (raw, ts))
    (hfe : HrDataKey.from_encoded k = some hr) :
    (raw.length = PREFIX_LEN + 8 ∧ ∃ h, hr.handle = HrHandle.int h) ∨
    (raw.length ≠ PREFIX_LEN + 8 ∧ ∃ ds, hr.handle = HrHandle.common ds) := by
  unfold HrDataKey.from_encoded at hfe
  rw [hdk] at hfe
  simp only [Option.some_bind, Option.bind_eq_some] at hfe
  obtain ⟨tid, htid, hfe2⟩ := hfe
  by_cases hlen : raw.length = PREFIX_LEN + 8
  · left
    refine ⟨hlen, ?_⟩
    rw [if_pos hlen] at hfe2
    simp only [Option.bind_eq_some, Option.map_eq_some'] at hfe2
    obtain ⟨hd, ⟨ih, hih, rfl⟩, hsome⟩ := hfe2
    cases hsome
    exact ⟨ih, rfl⟩
  · right
    refine ⟨hlen, ?_⟩
    rw [if_neg hlen] at hfe2
    simp only [Option.bind_eq_some] at hfe2
    obtain ⟨hd, hcm, hfe3⟩ := hfe2
    obtain ⟨hb, hhb, hfe4⟩ := hcm
    unfold HrHandle.from_encoded_common_handle at hfe4
    obtain ⟨dds, hdds, rfl⟩ := Option.map_eq_some'.mp hfe4
    cases hfe3
    exact ⟨_, rfl⟩

/-- Witness for C5 at a concrete int-handle key. -/
theorem from_encoded_handle_dispatch_witness :
    ((encode_row_key 5 9).length = PREFIX_LEN + 8 ∧
      ∃ h, HrDataKey.handle ⟨5, some 7, HrHandle.int 9⟩ = HrHandle.int h) ∨
    ((encode_row_key 5 9).length ≠ PREFIX_LEN + 8 ∧
      ∃ ds, HrDataKey.handle ⟨5, some 7, HrHandle.int 9⟩ = HrHandle.common ds) :=
  from_encoded_handle_dispatch
    (122 :: encodeBytesCmp (encode_row_key 5 9) ++ encodeU64Desc 7)
    (encode_row_key 5 9) (some 7) ⟨5, some 7, HrHandle.int 9⟩
    (decode_key_encoded (encode_row_key 5 9) 7 (by norm_num))
    (by
      obtain ⟨k2, henc2, hdec⟩ := hr_key_structured_roundtrip
        ⟨5, some 7, HrHandle.int 9⟩
        ⟨by norm_num, by norm_num, fun ts h => by cases h; norm_num, by norm_num⟩ 7 rfl
      cases henc2
      exact hdec)


/-! ## Index-value lemmas -/

theorem beBytes_two (n : Nat) : beBytes 2 n = [n / 256 % 256, n % 256] := by
  have h2 : n % 256 ^ 1 / 256 ^ 0 % 256 = n % 256 := by
    simp only [pow_one, pow_zero, Nat.div_one]
    exact Nat.mod_mod_of_dvd n (by norm_num)
  show n / 256 ^ 1 % 256 :: n % 256 ^ 1 / 256 ^ 0 % 256 :: beBytes 0 (n % 256 ^ 1 % 256 ^ 0) = _
  rw [h2]
  show n / 256 ^ 1 % 256 :: n % 256 :: [] = _
  rw [pow_one]

theorem beBytes8_ne_nil (p : Nat) : beBytes 8 p ≠ [] := by
  intro h
  have hl := length_beBytes 8 p
  rw [h] at hl
  exact absurd hl (by decide)

theorem split_common_handle_of_ne (rest : List Nat)
    (hh : rest.headD 0 ≠ INDEX_VALUE_COMMON_HANDLE_FLAG) :
    split_common_handle rest = Except.ok ([], rest) := by
  unfold split_common_handle
  rw [if_neg fun hc => hh hc.1]

theorem split_partition_id_of_ne (rest : List Nat)
    (hh : rest.headD 0 ≠ INDEX_VALUE_PARTITION_ID_FLAG) :
    split_partition_id rest = Except.ok ([], rest) := by
  unfold split_partition_id
  rw [if_neg fun hc => hh hc.1]

theorem split_restore_data_of_ne (rest : List Nat)
    (hh : rest.headD 0 ≠ INDEX_VALUE_RESTORED_DATA_FLAG) :
    split_restore_data rest = Except.ok ([], rest) := by
  unfold split_restore_data
  rw [if_neg fun hc => hh hc.1]

theorem split_restore_data_of_flag (rb : List Nat)
    (h1 : rb.headD 0 = INDEX_VALUE_RESTORED_DATA_FLAG) (h2 : rb ≠ []) :
    split_restore_data rb = Except.ok (rb, []) := by
  unfold split_restore_data
  rw [if_pos ⟨h1, h2⟩]

theorem split_common_handle_seg (bs rest : List Nat) (hne : bs ≠ [])
    (hlt : bs.length < 2 ^ 16) :
    split_common_handle (chSegOf (some bs) ++ rest) = Except.ok (bs, rest) := by
  have hform : chSegOf (some bs) ++ rest =
      INDEX_VALUE_COMMON_HANDLE_FLAG :: bs.length / 256 :: bs.length % 256 :: (bs ++ rest) := by
    have h1 : bs.length / 256 % 256 = bs.length / 256 := Nat.mod_eq_of_lt (by omega)
    simp [chSegOf, beBytes_two, h1]
  rw [hform]
  unfold split_common_handle
  rw [if_pos ⟨rfl, by simp⟩]
  rw [if_neg (by simp)]
  have hgd : (INDEX_VALUE_COMMON_HANDLE_FLAG :: bs.length / 256 :: bs.length % 256 ::
      (bs ++ rest)).getD 1 0 * 256 +
      (INDEX_VALUE_COMMON_HANDLE_FLAG :: bs.length / 256 :: bs.length % 256 ::
      (bs ++ rest)).getD 2 0 = bs.length := by
    simp only [List.getD_cons_succ, List.getD_cons_zero]
    omega
  rw [hgd]
  rw [if_neg (by simp; omega)]
  show Except.ok ((bs ++ rest).take bs.length, (bs ++ rest).drop bs.length) = _
  rw [List.take_left' rfl, List.drop_left' rfl]

theorem split_partition_id_seg (p : Nat) (rest : List Nat) :
    split_partition_id (pidSegOf (some p) ++ rest) = Except.ok (beBytes 8 p, rest) := by
  have hlen : (beBytes 8 p).length = 8 := length_beBytes 8 p
  have hform : pidSegOf (some p) ++ rest =
      INDEX_VALUE_PARTITION_ID_FLAG :: (beBytes 8 p ++ rest) := by
    simp [pidSegOf]
  rw [hform]
  unfold split_partition_id
  rw [if_pos ⟨rfl, by simp⟩]
  rw [if_neg (by simp [hlen])]
  show Except.ok ((beBytes 8 p ++ rest).take 8, (beBytes 8 p ++ rest).drop 8) = _
  rw [List.take_left' hlen, List.drop_left' hlen]

theorem decode_index_value_long (v : List Nat) (ver : Nat)
    (hlen : 9 < v.length) (hgv : get_index_version v = Except.ok ver)
    (htl : v.headD 0 < v.length) :
    decode_index_value v =
      decodeSegTail
        ((v.drop (if ver = 1 then 3 else 1)).take
          (v.length - (if ver = 1 then 3 else 1) - v.headD 0))
        (v.headD 0)
        (if ver = 1 then some (v.getD 1 0, v.getD 2 0) else none)
        (if (v.drop (if ver = 1 then 3 else 1)).drop
            (v.length - (if ver = 1 then 3 else 1) - v.headD 0) = ([] : List Nat) then none
         else some (HrIndexTail.from_bytes ((v.drop (if ver = 1 then 3 else 1)).drop
            (v.length - (if ver = 1 then 3 else 1) - v.headD 0)))) := by
  unfold decode_index_value
  rw [if_neg (by unfold MAX_OLD_ENCODED_VALUE_LEN; omega), hgv]
  exact if_neg (show ¬ (v.length ≤ v.headD 0) by omega)

theorem decodeSegTail_segments (ch : Option (List Nat)) (pid : Option Nat)
    (rd : Option (List Nat)) (tl : Nat) (vs : Option (Nat × Nat)) (tail : Option HrIndexTail)
    (hch : ∀ bs, ch = some bs → bs ≠ [] ∧ bs.length < 2 ^ 16 ∧ (datum_decode bs).isSome = true)
    (hrd : ∀ rb, rd = some rb →
      rb.headD 0 = INDEX_VALUE_RESTORED_DATA_FLAG ∧ rb ≠ []) :
    decodeSegTail (chSegOf ch ++ pidSegOf pid ++ rdSegOf rd) tl vs tail =
      Except.ok { tail_len := some tl, version_segment := vs,
                  common_handle := ch.bind fun bs =>
                    (datum_decode bs).map fun ds => ds.map HrDatum.ofDatum,
                  partition_id := pid.map fun p => toI64 (fromBeBytes (beBytes 8 p)),
                  restore_data := rd.map fun rb => RowV2.mk rb,
                  tail := tail } := by
  have hrdsplit : split_restore_data (rdSegOf rd) = Except.ok (rdSegOf rd, []) := by
    cases rd with
    | none =>
      exact split_restore_data_of_ne [] (by decide)
    | some rb =>
      obtain ⟨h1, h2⟩ := hrd rb rfl
      exact split_restore_data_of_flag rb h1 h2
  have hrdflag : ∀ rb, rd = some rb → RowV2.from_bytes rb = some (RowV2.mk rb) := by
    intro rb h
    obtain ⟨h1, h2⟩ := hrd rb h
    unfold RowV2.from_bytes
    rw [if_pos ⟨h1, h2⟩]
  have hpidsplit : split_partition_id (pidSegOf pid ++ rdSegOf rd) =
      Except.ok (((pidSegOf pid).drop 1).take 8, rdSegOf rd) := by
    cases pid with
    | none =>
      show split_partition_id (rdSegOf rd) = Except.ok ([], rdSegOf rd)
      apply split_partition_id_of_ne
      cases rd with
      | none => decide
      | some rb =>
        obtain ⟨h1, _⟩ := hrd rb rfl
        show rb.headD 0 ≠ INDEX_VALUE_PARTITION_ID_FLAG
        rw [h1]
        decide
    | some p =>
      have := split_partition_id_seg p (rdSegOf rd)
      rw [this]
      have hb : ((pidSegOf (some p)).drop 1).take 8 = beBytes 8 p := by
        show (beBytes 8 p).take 8 = beBytes 8 p
        exact List.take_of_length_le (by rw [length_beBytes])
      rw [hb]
  have hchsplit : split_common_handle (chSegOf ch ++ (pidSegOf pid ++ rdSegOf rd)) =
      Except.ok (ch.getD [], pidSegOf pid ++ rdSegOf rd) := by
    cases ch with
    | none =>
      show split_common_handle (pidSegOf pid ++ rdSegOf rd) =
        Except.ok ([], pidSegOf pid ++ rdSegOf rd)
      apply split_common_handle_of_ne
      cases pid with
      | some p =>
        have hh : (pidSegOf (some p) ++ rdSegOf rd).headD 0 =
            INDEX_VALUE_PARTITION_ID_FLAG := rfl
        rw [hh]
        decide
      | none =>
        cases rd with
        | none => decide
        | some rb =>
          obtain ⟨h1, _⟩ := hrd rb rfl
          show rb.headD 0 ≠ INDEX_VALUE_COMMON_HANDLE_FLAG
          rw [h1]
          decide
    | some bs =>
      obtain ⟨h1, h2, _⟩ := hch bs rfl
      exact split_common_handle_seg bs _ h1 h2
  have hchdec :
      (if (ch.getD [] : List Nat) = ([] : List Nat) then Except.ok none
       else
         match datum_decode (ch.getD []) with
         | some ds => Except.ok (some (ds.map HrDatum.ofDatum))
         | none => Except.error IndexErr.datumCorrupted :
        Except IndexErr (Option (List HrDatum))) =
      Except.ok (ch.bind fun bs => (datum_decode bs).map fun ds => ds.map HrDatum.ofDatum) := by
    cases ch with
    | none => rfl
    | some bs =>
      obtain ⟨h1, _, h3⟩ := hch bs rfl
      obtain ⟨ds, hds⟩ := Option.isSome_iff_exists.mp h3
      show (if bs = ([] : List Nat) then _ else _) = _
      rw [if_neg h1]
      simp only [Option.getD_some, Option.some_bind, hds, Option.map_some']
  have hpidval :
      (if (((pidSegOf pid).drop 1).take 8 : List Nat) = ([] : List Nat) then none
       else some (toI64 (fromBeBytes (((pidSegOf pid).drop 1).take 8)))) =
      pid.map fun p => toI64 (fromBeBytes (beBytes 8 p)) := by
    cases pid with
    | none => rfl
    | some p =>
      have hb : ((pidSegOf (some p)).drop 1).take 8 = beBytes 8 p := by
        show (beBytes 8 p).take 8 = beBytes 8 p
        exact List.take_of_length_le (by rw [length_beBytes])
      rw [hb, if_neg (beBytes8_ne_nil p)]
      rfl
  have hrddec :
      (if (rdSegOf rd : List Nat) = ([] : List Nat) then Except.ok none
       else
         match RowV2.from_bytes (rdSegOf rd) with
         | some r => Except.ok (some r)
         | none => Except.error IndexErr.rowCorrupted :
        Except IndexErr (Option RowV2)) =
      Except.ok (rd.map fun rb => RowV2.mk rb) := by
    cases rd with
    | none => rfl
    | some rb =>
      obtain ⟨_, h2⟩ := hrd rb rfl
      rw [show rdSegOf (some rb) = rb from rfl]
      rw [if_neg h2, hrdflag rb rfl]
      rfl
  unfold decodeSegTail
  rw [List.append_assoc]
  simp only [hchsplit, hpidsplit, hrdsplit]
  rw [if_neg (by simp)]
  rw [hchdec, hpidval, hrddec]

theorem decodeSegTail_extra (junk : List Nat) (tl : Nat) (vs : Option (Nat × Nat))
    (tail : Option HrIndexTail) (hne : junk ≠ [])
    (h126 : junk.headD 0 ≠ 126) (h127 : junk.headD 0 ≠ 127) (h128 : junk.headD 0 ≠ 128) :
    decodeSegTail junk tl vs tail = Except.error (IndexErr.extraBytes junk) := by
  unfold decodeSegTail
  simp only [split_common_handle_of_ne junk h127, split_partition_id_of_ne junk h126,
    split_restore_data_of_ne junk h128]
  rw [if_pos hne]

theorem decodeSegTail_partition_short (bs p8 : List Nat) (tl : Nat)
    (vs : Option (Nat × Nat)) (tail : Option HrIndexTail) (hne : bs ≠ [])
    (hlt : bs.length < 2 ^ 16) (hp8 : p8.length < 8) :
    decodeSegTail (chSegOf (some bs) ++ 126 :: p8) tl vs tail =
      Except.error (IndexErr.partitionIdTooShort (p8.length + 1)) := by
  have hsp : split_partition_id (126 :: p8) =
      Except.error (IndexErr.partitionIdTooShort (p8.length + 1)) := by
    unfold split_partition_id
    rw [if_pos ⟨rfl, by simp⟩, if_pos (by simp; omega)]
    simp
  unfold decodeSegTail
  simp only [split_common_handle_seg bs (126 :: p8) hne hlt, hsp]

theorem getD_zero_eq_headD (l : List Nat) : l.getD 0 0 = l.headD 0 := by
  cases l <;> rfl

/-- Claim C3: the segmented index-value layout round-trips through
`decode_index_value` — assembling a long index value out of a tail-length
byte, an optional version-1 segment, any subset of the flagged
common-handle / partition-id / restore-data segments and the trailing
tail bytes, the decoder recovers exactly that subset and no more.  This
is the corrected form of the claim: it holds only for values longer than
the legacy threshold (the claim's length-3/4 "version 1" values take the
old-collation early return instead, see the counterexample), with the
no-version-segment layout used for every version other than 1, not just
version 0. -/
theorem decode_index_value_segments (v1 : Bool) (ch : Option (List Nat)) (pid : Option Nat)
    (rd : Option (List Nat)) (tailB : List Nat)
    (hch : ∀ bs, ch = some bs → bs ≠ [] ∧ bs.length < 2 ^ 16 ∧ (datum_decode bs).isSome = true)
    (hpid : ∀ p, pid = some p → p < 2 ^ 64)
    (hrd : ∀ rb, rd = some rb → rb.headD 0 = INDEX_VALUE_RESTORED_DATA_FLAG ∧ rb ≠ [])
    (htl : tailB.length < 256)
    (hv1 : v1 = true → tailB.length ≤ 1)
    (hv0 : v1 = false → (chSegOf ch ++ pidSegOf pid ++ rdSegOf rd ++ tailB).headD 0 ≠
      INDEX_VALUE_VERSION_FLAG)
    (hlen : 9 < (assembleIndexValue v1 ch pid rd tailB).length) :
    decode_index_value (assembleIndexValue v1 ch pid rd tailB) =
      Except.ok { tail_len := some tailB.length,
                  version_segment := if v1 then some (INDEX_VALUE_VERSION_FLAG, 1) else none,
                  common_handle := ch.bind fun bs =>
                    (datum_decode bs).map fun ds => ds.map HrDatum.ofDatum,
                  partition_id := pid.map fun p => toI64 p,
                  restore_data := rd.map fun rb => RowV2.mk rb,
                  tail := if tailB = [] then none
                          else some (HrIndexTail.from_bytes tailB) } := by
  have hp : (pid.map fun p => toI64 (fromBeBytes (beBytes 8 p))) =
      pid.map fun p => toI64 p := by
    cases pid with
    | none => simp
    | some p =>
      have h := hpid p rfl
      rw [Option.map_some', Option.map_some', fromBe_beBytes 8 p
        (by simp only [Nat.reducePow] at h ⊢; omega)]
  cases v1 with
  | true =>
    have htl1 := hv1 rfl
    have hform : assembleIndexValue true ch pid rd tailB =
        tailB.length :: INDEX_VALUE_VERSION_FLAG :: 1 ::
          ((chSegOf ch ++ pidSegOf pid ++ rdSegOf rd) ++ tailB) := by
      simp [assembleIndexValue, INDEX_VALUE_VERSION_FLAG]
    rw [hform] at hlen ⊢
    have hlform : (tailB.length :: INDEX_VALUE_VERSION_FLAG :: 1 ::
        ((chSegOf ch ++ pidSegOf pid ++ rdSegOf rd) ++ tailB)).length =
        3 + (chSegOf ch ++ pidSegOf pid ++ rdSegOf rd).length + tailB.length := by
      simp
      omega
    have hgv : get_index_version (tailB.length :: INDEX_VALUE_VERSION_FLAG :: 1 ::
        ((chSegOf ch ++ pidSegOf pid ++ rdSegOf rd) ++ tailB)) = Except.ok 1 := by
      unfold get_index_version
      rw [if_neg (by omega), if_neg (by unfold MAX_OLD_ENCODED_VALUE_LEN; omega)]
      rw [if_neg (show ¬ ((tailB.length :: INDEX_VALUE_VERSION_FLAG :: 1 ::
        ((chSegOf ch ++ pidSegOf pid ++ rdSegOf rd) ++ tailB)).length ≤
        (tailB.length :: INDEX_VALUE_VERSION_FLAG :: 1 ::
        ((chSegOf ch ++ pidSegOf pid ++ rdSegOf rd) ++ tailB)).headD 0) from by
          rw [show (tailB.length :: INDEX_VALUE_VERSION_FLAG :: 1 ::
            ((chSegOf ch ++ pidSegOf pid ++ rdSegOf rd) ++ tailB)).headD 0 =
            tailB.length from rfl]
          omega)]
      rw [if_pos ⟨by
          rw [show (tailB.length :: INDEX_VALUE_VERSION_FLAG :: 1 ::
            ((chSegOf ch ++ pidSegOf pid ++ rdSegOf rd) ++ tailB)).headD 0 =
            tailB.length from rfl]
          omega,
        rfl⟩]
      rfl
    rw [decode_index_value_long _ 1 hlen hgv (by
      rw [show (tailB.length :: INDEX_VALUE_VERSION_FLAG :: 1 ::
        ((chSegOf ch ++ pidSegOf pid ++ rdSegOf rd) ++ tailB)).headD 0 =
        tailB.length from rfl]
      omega)]
    rw [if_pos (show (1 : Nat) = 1 from rfl)]
    rw [show (tailB.length :: INDEX_VALUE_VERSION_FLAG :: 1 ::
      ((chSegOf ch ++ pidSegOf pid ++ rdSegOf rd) ++ tailB)).drop 3 =
      (chSegOf ch ++ pidSegOf pid ++ rdSegOf rd) ++ tailB from rfl]
    rw [show (tailB.length :: INDEX_VALUE_VERSION_FLAG :: 1 ::
      ((chSegOf ch ++ pidSegOf pid ++ rdSegOf rd) ++ tailB)).headD 0 =
      tailB.length from rfl]
    rw [show (tailB.length :: INDEX_VALUE_VERSION_FLAG :: 1 ::
      ((chSegOf ch ++ pidSegOf pid ++ rdSegOf rd) ++ tailB)).length - 3 - tailB.length =
      (chSegOf ch ++ pidSegOf pid ++ rdSegOf rd).length from by rw [hlform]; omega]
    rw [List.take_left' rfl, List.drop_left' rfl]
    rw [show (tailB.length :: INDEX_VALUE_VERSION_FLAG :: 1 ::
      ((chSegOf ch ++ pidSegOf pid ++ rdSegOf rd) ++ tailB)).getD 1 0 =
      INDEX_VALUE_VERSION_FLAG from rfl]
    rw [show (tailB.length :: INDEX_VALUE_VERSION_FLAG :: 1 ::
      ((chSegOf ch ++ pidSegOf pid ++ rdSegOf rd) ++ tailB)).getD 2 0 = 1 from rfl]
    rw [decodeSegTail_segments ch pid rd _ _ _ hch hrd, hp]
    rfl
  | false =>
    have hv0' := hv0 rfl
    have hform : assembleIndexValue false ch pid rd tailB =
        tailB.length :: ((chSegOf ch ++ pidSegOf pid ++ rdSegOf rd) ++ tailB) := by
      simp [assembleIndexValue]
    rw [hform] at hlen ⊢
    have hlform : (tailB.length ::
        ((chSegOf ch ++ pidSegOf pid ++ rdSegOf rd) ++ tailB)).length =
        1 + (chSegOf ch ++ pidSegOf pid ++ rdSegOf rd).length + tailB.length := by
      simp
      omega
    have hgd1 : (tailB.length ::
        ((chSegOf ch ++ pidSegOf pid ++ rdSegOf rd) ++ tailB)).getD 1 0 =
        (chSegOf ch ++ pidSegOf pid ++ rdSegOf rd ++ tailB).headD 0 := by
      rw [show (tailB.length ::
        ((chSegOf ch ++ pidSegOf pid ++ rdSegOf rd) ++ tailB)).getD 1 0 =
        ((chSegOf ch ++ pidSegOf pid ++ rdSegOf rd) ++ tailB).getD 0 0 from rfl]
      rw [getD_zero_eq_headD]
    have hgv : get_index_version (tailB.length ::
        ((chSegOf ch ++ pidSegOf pid ++ rdSegOf rd) ++ tailB)) = Except.ok 0 := by
      unfold get_index_version
      rw [if_neg (by omega), if_neg (by unfold MAX_OLD_ENCODED_VALUE_LEN; omega)]
      rw [if_neg (show ¬ ((tailB.length ::
        ((chSegOf ch ++ pidSegOf pid ++ rdSegOf rd) ++ tailB)).length ≤
        (tailB.length ::
        ((chSegOf ch ++ pidSegOf pid ++ rdSegOf rd) ++ tailB)).headD 0) from by
          rw [show (tailB.length ::
            ((chSegOf ch ++ pidSegOf pid ++ rdSegOf rd) ++ tailB)).headD 0 =
            tailB.length from rfl]
          omega)]
      rw [if_neg fun hc => absurd (hgd1 ▸ hc.2) hv0']
    rw [decode_index_value_long _ 0 hlen hgv (by
      rw [show (tailB.length ::
        ((chSegOf ch ++ pidSegOf pid ++ rdSegOf rd) ++ tailB)).headD 0 =
        tailB.length from rfl]
      omega)]
    rw [if_neg (show ¬ ((0 : Nat) = 1) by decide)]
    rw [show (tailB.length ::
      ((chSegOf ch ++ pidSegOf pid ++ rdSegOf rd) ++ tailB)).drop 1 =
      (chSegOf ch ++ pidSegOf pid ++ rdSegOf rd) ++ tailB from rfl]
    rw [show (tailB.length ::
      ((chSegOf ch ++ pidSegOf pid ++ rdSegOf rd) ++ tailB)).headD 0 =
      tailB.length from rfl]
    rw [show (tailB.length ::
      ((chSegOf ch ++ pidSegOf pid ++ rdSegOf rd) ++ tailB)).length - 1 - tailB.length =
      (chSegOf ch ++ pidSegOf pid ++ rdSegOf rd).length from by rw [hlform]; omega]
    rw [List.take_left' rfl, List.drop_left' rfl]
    rw [decodeSegTail_segments ch pid rd _ _ _ hch hrd, hp]
    rfl

/-- Witness for C3: a version-1 value with all three optional segments
present and a 1-byte padding tail decodes to exactly those segments. -/
theorem decode_index_value_segments_witness :
    decode_index_value (assembleIndexValue true (some [0]) (some 5) (some [128, 7]) [9]) =
      Except.ok { tail_len := some 1, version_segment := some (125, 1),
                  common_handle := some [HrDatum.null], partition_id := some 5,
                  restore_data := some (RowV2.mk [128, 7]),
                  tail := some (HrIndexTail.padding [9]) } := by
  have h := decode_index_value_segments true (some [0]) (some 5) (some [128, 7]) [9]
    (fun bs hb => by cases hb; exact ⟨by decide, by decide, rfl⟩)
    (fun p hp => by cases hp; decide)
    (fun rb hb => by cases hb; exact ⟨rfl, by decide⟩)
    (by decide)
    (fun _ => by decide)
    (fun h => Bool.noConfusion h)
    (by decide)
  exact h

/-- Counterexample for C3 as stated: the length-3 value `[0, 0, 0]` is
classified as version 1 by `get_index_version`, yet `decode_index_value`
does not follow the claimed version-1 path (read `tail_len`, skip the
version segment, peel segments): it takes the old-collation early return,
producing a bare whole-payload tail with no `tail_len` and no version
segment. -/
theorem decode_index_value_c3_counterexample :
    get_index_version [0, 0, 0] = Except.ok 1 ∧
    decode_index_value [0, 0, 0] =
      Except.ok { tail := some (HrIndexTail.padding [0, 0, 0]) } ∧
    (HrIndexValue.tail_len { tail := some (HrIndexTail.padding [0, 0, 0]) } = none ∧
     HrIndexValue.version_segment { tail := some (HrIndexTail.padding [0, 0, 0]) } = none) :=
  ⟨rfl, rfl, rfl, rfl⟩

/-- Claim C4: the three framing violations of the spec's failure taxonomy
each make `decode_index_value` fail with the matching corruption error on
values longer than the legacy threshold: an oversized leading `tail_len`
byte; a partition-id sentinel with fewer than nine bytes remaining
(sentinel plus the 8-byte id); and non-empty unconsumed bytes after all
segments are split off.  (The taxonomy is nevertheless not exhaustive:
see the counterexample, where a corrupted common-handle length field
yields a distinct fourth error.) -/
theorem decode_index_value_error_taxonomy :
    (∀ v : List Nat, 9 < v.length → v.length ≤ v.headD 0 →
      decode_index_value v = Except.error (IndexErr.tailLenCorrupted (v.headD 0))) ∧
    (∀ bs p8 : List Nat, bs ≠ [] → bs.length < 2 ^ 16 → p8.length < 8 →
      5 ≤ bs.length + p8.length →
      decode_index_value (0 :: chSegOf (some bs) ++ 126 :: p8) =
        Except.error (IndexErr.partitionIdTooShort (p8.length + 1))) ∧
    (∀ junk : List Nat, 9 ≤ junk.length →
      junk.headD 0 ≠ 125 → junk.headD 0 ≠ 126 → junk.headD 0 ≠ 127 →
      junk.headD 0 ≠ 128 →
      decode_index_value (0 :: junk) = Except.error (IndexErr.extraBytes junk)) := by
  refine ⟨?_, ?_, ?_⟩
  · intro v hlen htl
    have hgv : get_index_version v = Except.error (IndexErr.tailLenCorrupted (v.headD 0)) := by
      unfold get_index_version
      rw [if_neg (by omega), if_neg (by unfold MAX_OLD_ENCODED_VALUE_LEN; omega), if_pos htl]
    unfold decode_index_value
    rw [if_neg (by unfold MAX_OLD_ENCODED_VALUE_LEN; omega), hgv]
  · intro bs p8 hne hlt hp8 hsz
    have hlen2 : (0 :: chSegOf (some bs) ++ 126 :: p8).length =
        5 + bs.length + p8.length := by
      simp [chSegOf, List.length_cons, List.length_append, length_beBytes]
      omega
    have hgd1 : (0 :: chSegOf (some bs) ++ 126 :: p8).getD 1 0 =
        INDEX_VALUE_COMMON_HANDLE_FLAG := rfl
    have hgv : get_index_version (0 :: chSegOf (some bs) ++ 126 :: p8) = Except.ok 0 := by
      unfold get_index_version
      rw [if_neg (by omega), if_neg (by unfold MAX_OLD_ENCODED_VALUE_LEN; omega)]
      rw [if_neg (show ¬ ((0 :: chSegOf (some bs) ++ 126 :: p8).length ≤
        (0 :: chSegOf (some bs) ++ 126 :: p8).headD 0) from by
          rw [show (0 :: chSegOf (some bs) ++ 126 :: p8).headD 0 = 0 from rfl]
          omega)]
      rw [if_neg fun hc => absurd hc.2 (by rw [hgd1]; decide)]
    rw [decode_index_value_long _ 0 (by omega) hgv (by
      rw [show (0 :: chSegOf (some bs) ++ 126 :: p8).headD 0 = 0 from rfl]
      omega)]
    rw [if_neg (show ¬ ((0 : Nat) = 1) by decide)]
    rw [show (0 :: chSegOf (some bs) ++ 126 :: p8).drop 1 =
      chSegOf (some bs) ++ 126 :: p8 from rfl]
    rw [show (0 :: chSegOf (some bs) ++ 126 :: p8).headD 0 = 0 from rfl]
    rw [show (0 :: chSegOf (some bs) ++ 126 :: p8).length - 1 - 0 =
      (chSegOf (some bs) ++ 126 :: p8).length from by simp]
    rw [List.take_length, List.drop_length]
    rw [if_pos rfl]
    exact decodeSegTail_partition_short bs p8 0 none none hne hlt hp8
  · intro junk hlen h125 h126 h127 h128
    have hne : junk ≠ [] := by
      intro h
      rw [h] at hlen
      exact absurd hlen (by decide)
    have hgd1 : (0 :: junk).getD 1 0 = junk.headD 0 := by
      rw [show (0 :: junk).getD 1 0 = junk.getD 0 0 from rfl, getD_zero_eq_headD]
    have hgv : get_index_version (0 :: junk) = Except.ok 0 := by
      unfold get_index_version
      rw [if_neg (by simp; omega), if_neg (by unfold MAX_OLD_ENCODED_VALUE_LEN; simp; omega)]
      rw [if_neg (show ¬ ((0 :: junk).length ≤ (0 :: junk).headD 0) from by
          rw [show (0 :: junk).headD 0 = 0 from rfl]
          simp)]
      rw [if_neg fun hc => absurd (hgd1 ▸ hc.2) h125]
    rw [decode_index_value_long _ 0 (by simp; omega) hgv (by
      rw [show (0 :: junk).headD 0 = 0 from rfl]
      simp)]
    rw [if_neg (show ¬ ((0 : Nat) = 1) by decide)]
    rw [show (0 :: junk).drop 1 = junk from rfl]
    rw [show (0 :: junk).headD 0 = 0 from rfl]
    rw [show (0 :: junk).length - 1 - 0 = junk.length from by simp]
    rw [List.take_length, List.drop_length]
    rw [if_pos rfl]
    exact decodeSegTail_extra junk 0 none none hne h126 h127 h128

/-- Witness for C4 at three concrete corrupted values. -/
theorem decode_index_value_error_taxonomy_witness :
    decode_index_value [255, 0, 0, 0, 0, 0, 0, 0, 0, 0] =
      Except.error (IndexErr.tailLenCorrupted 255) ∧
    decode_index_value (0 :: chSegOf (some [0, 0, 0, 0]) ++ 126 :: [1]) =
      Except.error (IndexErr.partitionIdTooShort 2) ∧
    decode_index_value (0 :: [99, 0, 0, 0, 0, 0, 0, 0, 0]) =
      Except.error (IndexErr.extraBytes [99, 0, 0, 0, 0, 0, 0, 0, 0]) :=
  ⟨decode_index_value_error_taxonomy.1 _ (by decide) (by decide),
   decode_index_value_error_taxonomy.2.1 [0, 0, 0, 0] [1] (by decide) (by decide)
     (by decide) (by decide),
   decode_index_value_error_taxonomy.2.2 [99, 0, 0, 0, 0, 0, 0, 0, 0] (by decide)
     (by decide) (by decide) (by decide) (by decide)⟩

/-- Counterexample for C4 as stated: the claimed three-way failure
taxonomy is not exhaustive — a common-handle segment whose 2-byte length
field overruns the buffer fails with a distinct fourth error
(`handle_len` corruption), on a value whose leading `tail_len` byte is
perfectly valid. -/
theorem decode_index_value_c4_counterexample :
    decode_index_value [0, 127, 255, 255, 0, 0, 0, 0, 0, 0, 0, 0] =
      Except.error (IndexErr.handleLenCorrupted 65535) ∧
    [0, 127, 255, 255, 0, 0, 0, 0, 0, 0, 0, 0].headD 0 <
      [0, 127, 255, 255, 0, 0, 0, 0, 0, 0, 0, 0].length :=
  ⟨rfl, by decide⟩

/-! ## CSV dispatch lemmas -/

/-- Claim C9: in CSV output mode, index entries of both column families
are silently skipped, and a write-family record entry whose parsed write
marker carries no short value is silently skipped; conversely every
emitted CSV line comes from a record entry, either of the default family
or of the write family with a short value present.  This is the
corrected form of the claim: write-family record entries are NOT all
skipped — one whose marker embeds a short value produces a CSV row from
that short value (see the counterexample). -/
theorem csv_output_dispatch :
    (∀ (sch : Schema) (k v : List Nat),
      put_line_csv CfName.cf_default DataType.index sch k v = CsvOut.skipped) ∧
    (∀ (sch : Schema) (k v : List Nat),
      put_line_csv CfName.cf_write DataType.index sch k v = CsvOut.skipped) ∧
    (∀ (sch : Schema) (k v : List Nat) (w : WriteRefT),
      WriteRefParse v = some w → w.short_value = none →
      put_line_csv CfName.cf_write DataType.record sch k v = CsvOut.skipped) ∧
    (∀ (cf : CfName) (dt : DataType) (sch : Schema) (k v b : List Nat),
      put_line_csv cf dt sch k v = CsvOut.line b →
      dt = DataType.record ∧
        (cf = CfName.cf_default ∨
         (cf = CfName.cf_write ∧
          ∃ w sv, WriteRefParse v = some w ∧ w.short_value = some sv))) := by
  refine ⟨fun sch k v => rfl, fun sch k v => rfl, ?_, ?_⟩
  · intro sch k v w hw hsv
    unfold put_line_csv kv_to_csv_write
    simp only [hw, hsv, Option.map_none']
  · intro cf dt sch k v b hline
    cases cf with
    | cf_default =>
      cases dt with
      | record => exact ⟨rfl, Or.inl rfl⟩
      | index => exact absurd hline (by unfold put_line_csv; intro h; cases h)
    | cf_write =>
      cases dt with
      | record =>
        refine ⟨rfl, Or.inr ⟨rfl, ?_⟩⟩
        unfold put_line_csv kv_to_csv_write at hline
        cases hp : WriteRefParse v with
        | none =>
          rw [hp] at hline
          simp at hline
        | some w =>
          rw [hp] at hline
          cases hsv : w.short_value with
          | none =>
            simp only [hsv, Option.map_none'] at hline
            simp at hline
          | some sv => exact ⟨w, sv, rfl, hsv⟩
      | index => exact absurd hline (by unfold put_line_csv; intro h; cases h)
    | cf_lock => exact absurd hline (by unfold put_line_csv; intro h; cases h)

/-- Witness for C9: the skip conjuncts at concrete entries (an empty
schema, a put marker `[80, 5]` with no short value) and the
line-characterization conjunct at a concrete default-family record
entry. -/
theorem csv_output_dispatch_witness :
    put_line_csv CfName.cf_default DataType.index
      { columns := [], column_ids := [], primary_handle := none, common_handle := [] }
      [] [] = CsvOut.skipped ∧
    put_line_csv CfName.cf_write DataType.index
      { columns := [], column_ids := [], primary_handle := none, common_handle := [] }
      [] [] = CsvOut.skipped ∧
    put_line_csv CfName.cf_write DataType.record
      { columns := [], column_ids := [], primary_handle := none, common_handle := [] }
      [] [80, 5] = CsvOut.skipped ∧
    (DataType.record = DataType.record ∧
      (CfName.cf_default = CfName.cf_default ∨
       (CfName.cf_default = CfName.cf_write ∧
        ∃ w sv, WriteRefParse [8, 2, 0] = some w ∧ w.short_value = some sv))) :=
  ⟨csv_output_dispatch.1 _ [] [],
   csv_output_dispatch.2.1 _ [] [],
   csv_output_dispatch.2.2.1 _ [] [80, 5]
     { write_type := WriteType.put, start_ts := 5 } rfl rfl,
   csv_output_dispatch.2.2.2 CfName.cf_default DataType.record
     { columns := [], column_ids := [], primary_handle := none, common_handle := [] }
     [] [8, 2, 0] [10] rfl⟩

/-- Counterexample for C9 as stated: a write-column-family record entry is
not skipped when its write marker embeds a short value — the put marker
`[80, 5, 118, 3, 8, 2, 0]` (type byte, start-ts varint, flagged 3-byte
short value `[8, 2, 0]`) yields a CSV line (here the empty row plus the
newline, under an empty schema). -/
theorem put_line_csv_c9_counterexample :
    WriteRefParse [80, 5, 118, 3, 8, 2, 0] =
      some { write_type := WriteType.put, start_ts := 5,
             has_overlapped_rollback := false, gc_fence := none,
             short_value := some [8, 2, 0] } ∧
    put_line_csv CfName.cf_write DataType.record
      { columns := [], column_ids := [], primary_handle := none, common_handle := [] }
      [] [80, 5, 118, 3, 8, 2, 0] = CsvOut.line [10] :=
  ⟨rfl, rfl⟩

end BackupText
